import Mathlib

/-!
Verification development for the weekly-report news pipeline
(deduplication, posterior classification, layered SQLite store).

Shallow embedding conventions:
* Python strings are Lean `String`s; Python `str.lower()` is `pyLower`
  (ASCII per-character lowering, as in CPython for the labels involved);
  Python substring tests (`pat in s`) are `containsSub s pat`.
* Python floats are modelled exactly as rationals (`ℚ`).
* Timestamps are modelled as integer day numbers; SQLite's
  `strftime('%Y-W%W', ...)` period tag is abstracted as a parameter
  `week : Int → Int`.
* The MD5-based simhash of `simhash_utils.simhash64` is not reproduced
  bit-for-bit; fingerprint computation enters as an explicit function
  parameter, which is sound because every verified property is
  fingerprint-generic.
* Fallible Python code (KeyError, sqlite UNIQUE violations, LLM call
  exceptions) is modelled with `Option` / `Except`.
-/

namespace WeeklyReport

/-- ASCII lowercase of a string, character by character (Python `str.lower()`
restricted to the ASCII letters; CJK characters are unchanged, matching
CPython on the category labels used by the pipeline). -/
def pyLower (s : String) : String := String.mk (s.data.map Char.toLower)

/-- `listStarts l p`: the char list `l` starts with `p`. -/
def listStarts : List Char → List Char → Bool
  | _, [] => true
  | [], _ :: _ => false
  | c :: cs, p :: ps => c == p && listStarts cs ps

/-- `subAt hay needle`: `needle` occurs contiguously somewhere in `hay`. -/
def subAt : List Char → List Char → Bool
  | [], p => p.isEmpty
  | c :: cs, p => listStarts (c :: cs) p || subAt cs p

/-- Python's substring test `pat in s`. -/
def containsSub (s pat : String) : Bool := subAt s.data pat.data

/-- First-occurrence deduplication (order-preserving, like iterating the keys
of a Python `dict` / `defaultdict` in insertion order). -/
def dedupFirstAux [DecidableEq α] (seen : List α) : List α → List α
  | [] => []
  | a :: l => if a ∈ seen then dedupFirstAux seen l else a :: dedupFirstAux (seen ++ [a]) l

/-- Order-preserving dedup keeping the first occurrence of each value. -/
def dedupFirst [DecidableEq α] (l : List α) : List α := dedupFirstAux [] l

/-- Python `enumerate` starting at `n`. -/
def pyEnum (n : Nat) : List α → List (Nat × α)
  | [] => []
  | a :: l => (n, a) :: pyEnum (n + 1) l

theorem mem_dedupFirstAux [DecidableEq α] (a : α) (seen : List α) (l : List α) :
    a ∈ dedupFirstAux seen l ↔ a ∈ l ∧ a ∉ seen := by
  induction l generalizing seen with
  | nil => simp [dedupFirstAux]
  | cons b l ih =>
    by_cases hb : b ∈ seen
    · simp only [dedupFirstAux, if_pos hb, ih, List.mem_cons]
      constructor
      · rintro ⟨h1, h2⟩; exact ⟨Or.inr h1, h2⟩
      · rintro ⟨h1 | h1, h2⟩
        · exact absurd (h1 ▸ hb) h2
        · exact ⟨h1, h2⟩
    · simp only [dedupFirstAux, if_neg hb, List.mem_cons, ih, List.mem_append,
        List.mem_singleton]
      by_cases hab : a = b
      · subst hab; simp [hb]
      · simp only [hab, false_or]
        tauto

theorem mem_dedupFirst [DecidableEq α] (a : α) (l : List α) :
    a ∈ dedupFirst l ↔ a ∈ l := by
  simp [dedupFirst, mem_dedupFirstAux]

theorem nodup_dedupFirstAux [DecidableEq α] (seen : List α) (l : List α) :
    (dedupFirstAux seen l).Nodup := by
  induction l generalizing seen with
  | nil => simp [dedupFirstAux]
  | cons b l ih =>
    by_cases hb : b ∈ seen
    · simpa [dedupFirstAux, if_pos hb] using ih seen
    · simp only [dedupFirstAux, if_neg hb]
      refine List.nodup_cons.mpr ⟨?_, ih (seen ++ [b])⟩
      intro hmem
      exact ((mem_dedupFirstAux b (seen ++ [b]) l).mp hmem).2 (by simp)

theorem nodup_dedupFirst [DecidableEq α] (l : List α) : (dedupFirst l).Nodup :=
  nodup_dedupFirstAux [] l

theorem pyEnum_map_snd (n : Nat) (l : List α) : (pyEnum n l).map Prod.snd = l := by
  induction l generalizing n with
  | nil => rfl
  | cons a l ih => simp [pyEnum, ih]

theorem mem_pyEnum (n : Nat) (l : List α) (p : Nat × α) :
    p ∈ pyEnum n l ↔ ∃ k, k < l.length ∧ p.1 = n + k ∧ l.get? k = some p.2 := by
  induction l generalizing n with
  | nil => simp [pyEnum]
  | cons a l ih =>
    simp only [pyEnum, List.mem_cons, ih]
    constructor
    · rintro (rfl | ⟨k, hk, hfst, hget⟩)
      · exact ⟨0, by simp, by simp, by simp⟩
      · exact ⟨k + 1, by simpa using Nat.succ_lt_succ hk, by omega, by simpa using hget⟩
    · rintro ⟨k, hk, hfst, hget⟩
      cases k with
      | zero =>
        left
        simp only [List.get?] at hget
        cases p with
        | mk i b => simp_all
      | succ k =>
        right
        exact ⟨k, by simpa using Nat.lt_of_succ_lt_succ hk, by omega, by simpa using hget⟩

theorem pyEnum_fst_lt (n : Nat) (l : List α) :
    (pyEnum n l).Pairwise (fun p q => p.1 < q.1) := by
  induction l generalizing n with
  | nil => simp [pyEnum]
  | cons a l ih =>
    refine List.pairwise_cons.mpr ⟨?_, ih (n + 1)⟩
    intro q hq
    obtain ⟨k, _, hfst, _⟩ := (mem_pyEnum (n + 1) l q).mp hq
    omega

theorem nodup_pyEnum_fst (n : Nat) (l : List α) :
    ((pyEnum n l).map Prod.fst).Nodup :=
  List.pairwise_map.mpr ((pyEnum_fst_lt n l).imp fun h => Nat.ne_of_lt h)

/-! ## Posterior classifier (`src/llm/analyze_article.py`) -/

/-- Hard-override trust-weight threshold, `config_loader.HARD_WEIGHT`
(env default `"3.0"`). -/
def HARD_WEIGHT : ℚ := 3

/-- The four soft-blending buckets, in the insertion order of the Python
dict `base = {"news": .., "product": .., "market": .., "method": ..}`. -/
structure Base4 where
  news : ℚ
  product : ℚ
  market : ℚ
  method : ℚ
deriving DecidableEq

/-- Sum of the four bucket values (`sum(base.values())`). -/
def Base4.total (b : Base4) : ℚ := b.news + b.product + b.market + b.method

/-- `base[llm_cat] += x`: fails (Python `KeyError`) when `llm_cat` is not one
of the four bucket keys. -/
def addToCat (b : Base4) (cat : String) (x : ℚ) : Option Base4 :=
  if cat = "news" then some { b with news := b.news + x }
  else if cat = "product" then some { b with product := b.product + x }
  else if cat = "market" then some { b with market := b.market + x }
  else if cat = "method" then some { b with method := b.method + x }
  else none

/-- One iteration of the expertise-bias loop of
`posterior_category_with_priors`: substring-match the tag `e` against the
markers and add `u` to the first matching bucket. -/
def biasFor (u : ℚ) (b : Base4) (e : String) : Base4 :=
  if containsSub e "要闻" then { b with news := b.news + u }
  else if containsSub e "产品" then { b with product := b.product + u }
  else if containsSub e "方法论" || containsSub e "方法" || containsSub e "运营/研发/投放方法论" then
    { b with method := b.method + u }
  else if containsSub e "市场数据" then { b with market := b.market + u }
  else b

/-- Python `max(items, key=lambda x: x[1])`: first maximal element wins
(a later element replaces the current best only when strictly greater). -/
def pyMaxSnd : (String × ℚ) → List (String × ℚ) → (String × ℚ)
  | best, [] => best
  | best, p :: rest => pyMaxSnd (if best.2 < p.2 then p else best) rest

/-- The four `(key, value)` pairs of a bucket map, in dict iteration order. -/
def distPairs (d : Base4) : List (String × ℚ) :=
  [("news", d.news), ("product", d.product), ("market", d.market), ("method", d.method)]

/-- Python `float(confid or 0.6)`: an absent or zero confidence becomes 0.6
(`0.0` is falsy in Python, so it too is replaced by the default). -/
def effConf (confid : Option ℚ) : ℚ :=
  match confid with
  | none => 3 / 5
  | some q => if q = 0 then 3 / 5 else q

/-- The confidence contribution `0.15 * max(0.0, min(c, 1.0))`. -/
def confAdd (confid : Option ℚ) : ℚ := 3/20 * max 0 (min (effConf confid) 1)

/-- `bias_unit = 0.12 * max(0.5, min(weight, 4.0))`. -/
def biasUnit (weight : ℚ) : ℚ := 3/25 * max (1/2) (min weight 4)

/-- Tail of the soft-blending path: renormalize the biased buckets (the
`s = sum(base.values()) or 1.0` guard included) and pick the arg-max key by
Python `max` over dict iteration order. -/
def mkSoftResult (b2 : Base4) : String × List (String × ℚ) :=
  let s := if b2.total = 0 then 1 else b2.total
  let d : Base4 := ⟨b2.news / s, b2.product / s, b2.market / s, b2.method / s⟩
  ((pyMaxSnd ("news", d.news)
    [("product", d.product), ("market", d.market), ("method", d.method)]).1,
    distPairs d)

/-- Soft-blending path of `posterior_category_with_priors` (everything after
the hard-override block).  Returns `none` exactly when `base[llm_cat]`
raises `KeyError`. -/
def posteriorSoft (llmCat : String) (confid : Option ℚ) (expert : List String)
    (weight : ℚ) : Option (String × List (String × ℚ)) :=
  match addToCat ⟨1/4, 1/4, 1/4, 1/4⟩ llmCat (confAdd confid) with
  | none => none
  | some b1 => some (mkSoftResult (expert.foldl (biasFor (biasUnit weight)) b1))

/-- `analyze_article.posterior_category_with_priors(llm_cat, confid, expert,
weight)`.  The hard-override branch fires when the source declares exactly one
expertise tag, its weight reaches `HARD_WEIGHT`, and the tag carries one of
the three markers; any other input falls through to soft blending. -/
def posterior_category_with_priors (llmCat : String) (confid : Option ℚ)
    (expert : List String) (weight : ℚ) : Option (String × List (String × ℚ)) :=
  match expert with
  | [e] =>
    if HARD_WEIGHT ≤ weight then
      if containsSub e "要闻" then
        some ("news", [("news", 1), ("product", 0), ("method", 0)])
      else if containsSub e "产品" then
        some ("product", [("news", 0), ("product", 1), ("method", 0)])
      else if containsSub e "方法论" || containsSub e "方法" then
        some ("method", [("news", 0), ("product", 0), ("method", 1)])
      else posteriorSoft llmCat confid expert weight
    else posteriorSoft llmCat confid expert weight
  | _ => posteriorSoft llmCat confid expert weight

/-- Does the hard-override branch of `posterior_category_with_priors` fire? -/
def overrideFires (expert : List String) (weight : ℚ) : Bool :=
  match expert with
  | [e] =>
    decide (HARD_WEIGHT ≤ weight) &&
      (containsSub e "要闻" || containsSub e "产品" ||
        containsSub e "方法论" || containsSub e "方法")
  | _ => false

/-- Category coercion at the end of `analyze_article_llm` (lines 101-107):
an out-of-set label is replaced by `market` when the tags carry `市场数据`,
else by `method`; when `ENABLE_LLM_IGNORE` is set, `ignore` is in-set. -/
def coerceCategory (enableIgnore : Bool) (rawCat : Option String)
    (tags : List String) : String :=
  let cat := pyLower (rawCat.getD "")
  let allowed := if enableIgnore then ["news", "product", "market", "method", "ignore"]
    else ["news", "product", "market", "method"]
  if cat ∈ allowed then cat
  else if "市场数据" ∈ tags then "market"
  else "method"

/-- The ignore-gate in `bucketizer.analyze_and_bucket` (line 53): an item whose
analyzed category is `ignore` is dropped (upserted with `valid=4`) before
`posterior_category_with_priors` is ever called. -/
def bucketizerGate (enableIgnore : Bool) (cat : String) : Option String :=
  if enableIgnore && cat == "ignore" then none else some cat

/-! ## Shingle similarity (`src/post_process_dedup.py`) -/

/-- `post_process_dedup.jaccard(a, b)`: zero when either set is empty or the
intersection is empty, else `|a∩b| / |a∪b|`. -/
def jaccard (a b : Finset String) : ℚ :=
  if a = ∅ ∨ b = ∅ then 0
  else if (a ∩ b).card = 0 then 0
  else ((a ∩ b).card : ℚ) / ((a ∪ b).card : ℚ)

/-- C8: for all shingle sets, `jaccard` equals `|a∩b| / |a∪b|` (the two
early returns coincide with the rational ratio: the numerator is `0` whenever
the intersection is empty, and division by the zero cardinality of an empty
union is also `0`), lies in `[0,1]`, equals `1` on any non-empty set against
itself, and equals `0` when either argument is empty. -/
theorem jaccard_bounds (a b : Finset String) :
    jaccard a b = ((a ∩ b).card : ℚ) / ((a ∪ b).card : ℚ) ∧
    (0 ≤ jaccard a b ∧ jaccard a b ≤ 1) ∧
    (a ≠ ∅ → jaccard a a = 1) ∧
    ((a = ∅ ∨ b = ∅) → jaccard a b = 0) := by
  refine ⟨?_, ⟨?_, ?_⟩, ?_, ?_⟩
  · unfold jaccard
    split_ifs with h1 h2
    · have hcard : (a ∩ b).card = 0 := by
        rcases h1 with rfl | rfl
        · simp
        · simp
      rw [hcard, Nat.cast_zero, zero_div]
    · rw [h2, Nat.cast_zero, zero_div]
    · rfl
  · unfold jaccard
    split_ifs
    · exact le_refl 0
    · exact le_refl 0
    · positivity
  · unfold jaccard
    split_ifs with h1 h2
    · exact zero_le_one
    · exact zero_le_one
    · have hsub : (a ∩ b) ⊆ (a ∪ b) :=
        Finset.Subset.trans Finset.inter_subset_left Finset.subset_union_left
      have hle : (a ∩ b).card ≤ (a ∪ b).card := Finset.card_le_card hsub
      have hpos : (0 : ℚ) < ((a ∪ b).card : ℚ) := by
        have h3 : 0 < (a ∪ b).card := lt_of_lt_of_le (Nat.pos_of_ne_zero h2) hle
        exact_mod_cast h3
      exact (div_le_one hpos).mpr (by exact_mod_cast hle)
  · intro ha
    have h0 : ¬(a = ∅ ∨ a = ∅) := by simp [ha]
    have hc : a.card ≠ 0 := by simp [Finset.card_eq_zero, ha]
    unfold jaccard
    rw [if_neg h0, Finset.inter_self, Finset.union_self, if_neg hc]
    exact div_self (by exact_mod_cast hc)
  · intro h
    unfold jaccard
    rw [if_pos h]

/-- Witness for `jaccard_bounds` at the singleton set. -/
theorem jaccard_bounds_witness :
    ({"x"} : Finset String) ≠ ∅ ∧ jaccard {"x"} {"x"} = 1 :=
  ⟨Finset.singleton_ne_empty "x",
    (jaccard_bounds {"x"} {"x"}).2.2.1 (Finset.singleton_ne_empty "x")⟩

/-- C2 counterexample: a source with the single expertise tag `市场数据` and
weight `5 ≥ HARD_WEIGHT` is NOT hard-overridden: the tag has no mapped
category, the raw label is not ignored (it still feeds the blend), and the
returned distribution is the four-key soft blend, not a one-hot. -/
theorem hard_override_single_market_tag_not_onehot :
    posterior_category_with_priors "news" (some (9/10)) ["市场数据"] 5
      = some ("market", [("news", 77/323), ("product", 50/323),
          ("market", 146/323), ("method", 50/323)]) ∧
    posterior_category_with_priors "product" (some (9/10)) ["市场数据"] 5
      = some ("market", [("news", 50/323), ("product", 77/323),
          ("market", 146/323), ("method", 50/323)]) ∧
    ((146 : ℚ)/323 ≠ 1 ∧ (77 : ℚ)/323 ≠ 0 ∧ (77 : ℚ)/323 ≠ 50/323) := by
  have hm1 : containsSub "市场数据" "要闻" = false := by decide
  have hm2 : containsSub "市场数据" "产品" = false := by decide
  have hm3 : containsSub "市场数据" "方法论" = false := by decide
  have hm4 : containsSub "市场数据" "方法" = false := by decide
  have hm5 : containsSub "市场数据" "运营/研发/投放方法论" = false := by decide
  have hm6 : containsSub "市场数据" "市场数据" = true := by decide
  refine ⟨?_, ?_, by norm_num, by norm_num, by norm_num⟩ <;>
    · simp [posterior_category_with_priors, posteriorSoft, addToCat, biasFor,
        distPairs, pyMaxSnd, Base4.total, HARD_WEIGHT, effConf, confAdd, biasUnit,
        mkSoftResult, hm1, hm2, hm3, hm4, hm5, hm6]
      norm_num

/-- C2 (amended): when the source declares exactly one expertise tag, the tag
carries one of the three mapped markers (headline/news, product,
methodology), and the trust weight reaches `HARD_WEIGHT`, the posterior
ignores the raw label and confidence entirely and returns the mapped category
with the degenerate one-hot `{news, product, method}` distribution. -/
theorem hard_override_spec (llmCat : String) (confid : Option ℚ) (e : String)
    (weight : ℚ) (hw : HARD_WEIGHT ≤ weight) :
    (containsSub e "要闻" = true →
      posterior_category_with_priors llmCat confid [e] weight
        = some ("news", [("news", 1), ("product", 0), ("method", 0)])) ∧
    (containsSub e "要闻" = false → containsSub e "产品" = true →
      posterior_category_with_priors llmCat confid [e] weight
        = some ("product", [("news", 0), ("product", 1), ("method", 0)])) ∧
    (containsSub e "要闻" = false → containsSub e "产品" = false →
      (containsSub e "方法论" = true ∨ containsSub e "方法" = true) →
      posterior_category_with_priors llmCat confid [e] weight
        = some ("method", [("news", 0), ("product", 0), ("method", 1)])) := by
  refine ⟨?_, ?_, ?_⟩
  · intro h1
    simp [posterior_category_with_priors, hw, h1]
  · intro h1 h2
    simp [posterior_category_with_priors, hw, h1, h2]
  · intro h1 h2 h3
    rcases h3 with h3 | h3 <;>
      simp [posterior_category_with_priors, hw, h1, h2, h3]

/-- Witness for `hard_override_spec`: expertise `["要闻"]`, weight `5`; an
arbitrary raw classification (`product` at confidence 0.99) is overridden. -/
theorem hard_override_spec_witness :
    HARD_WEIGHT ≤ (5 : ℚ) ∧ containsSub "要闻" "要闻" = true ∧
    posterior_category_with_priors "product" (some (99/100)) ["要闻"] 5
      = some ("news", [("news", 1), ("product", 0), ("method", 0)]) :=
  ⟨by norm_num [HARD_WEIGHT], by decide,
    (hard_override_spec "product" (some (99/100)) "要闻" 5
      (by norm_num [HARD_WEIGHT])).1 (by decide)⟩

/-- C3 counterexample: with raw label `news`, confidence exactly `0`, no
expertise and weight `1`, the code computes `float(confid or 0.6) = 0.6` and
adds `0.15 × 0.6 = 0.09` to the news bucket, yielding news score `34/109`; the
claimed formula (`0.15 × clamp(0,0,1) = 0` added) would leave the uniform
`1/4`. -/
theorem soft_zero_confidence_uses_default :
    posterior_category_with_priors "news" (some 0) [] 1
      = some ("news", [("news", 34/109), ("product", 25/109),
          ("market", 25/109), ("method", 25/109)]) ∧
    (34 : ℚ)/109 ≠ 1/4 := by
  constructor
  · simp [posterior_category_with_priors, posteriorSoft, addToCat,
      distPairs, pyMaxSnd, Base4.total, effConf, confAdd, biasUnit, mkSoftResult]
    norm_num
  · norm_num

/-- The bucket an expertise tag biases, following the `elif` priority of the
loop in `posterior_category_with_priors` (news before product before method
before market; unmatched tags bias nothing). -/
def tagBucket (e : String) : Option String :=
  if containsSub e "要闻" then some "news"
  else if containsSub e "产品" then some "product"
  else if containsSub e "方法论" || containsSub e "方法" || containsSub e "运营/研发/投放方法论" then
    some "method"
  else if containsSub e "市场数据" then some "market"
  else none

/-- Number of declared expertise tags biasing bucket `k`. -/
def countTag (expert : List String) (k : String) : Nat :=
  (expert.filter (fun e => tagBucket e = some k)).length

/-- The soft-blending bucket values as described by the (amended) spec
sentence: uniform prior `1/4`, plus `0.15 × clamp(c, 0, 1)` on the raw
label's bucket — where a missing or zero confidence is first replaced by
`0.6` — plus one unit of `0.12 × clamp(weight, 0.5, 4)` per matching
expertise tag, before renormalization. -/
def specSoftBase (llmCat : String) (confid : Option ℚ) (expert : List String)
    (weight : ℚ) : Base4 :=
  let add : ℚ := confAdd confid
  let u : ℚ := biasUnit weight
  { news := 1/4 + (if llmCat = "news" then add else 0) + u * countTag expert "news"
    product := 1/4 + (if llmCat = "product" then add else 0) + u * countTag expert "product"
    market := 1/4 + (if llmCat = "market" then add else 0) + u * countTag expert "market"
    method := 1/4 + (if llmCat = "method" then add else 0) + u * countTag expert "method" }

theorem foldl_biasFor (u : ℚ) (expert : List String) (b : Base4) :
    expert.foldl (biasFor u) b =
      ⟨b.news + u * countTag expert "news", b.product + u * countTag expert "product",
       b.market + u * countTag expert "market", b.method + u * countTag expert "method"⟩ := by
  induction expert generalizing b with
  | nil => cases b; simp [countTag]
  | cons e es ih =>
    rw [List.foldl_cons, ih]
    simp only [countTag, List.filter_cons]
    by_cases h1 : containsSub e "要闻"
    · simp [biasFor, tagBucket, h1, List.length_cons]
      push_cast
      and_intros <;> ring
    · by_cases h2 : containsSub e "产品"
      · simp [biasFor, tagBucket, h1, h2, List.length_cons]
        push_cast
        and_intros <;> ring
      · by_cases h3 : containsSub e "方法论" || containsSub e "方法" || containsSub e "运营/研发/投放方法论"
        · simp [biasFor, tagBucket, h1, h2, h3, List.length_cons]
          push_cast
          and_intros <;> ring
        · by_cases h4 : containsSub e "市场数据"
          · simp [biasFor, tagBucket, h1, h2, h3, h4, List.length_cons]
            push_cast
            and_intros <;> ring
          · simp [biasFor, tagBucket, h1, h2, h3, h4]

theorem pyMaxSnd4 (n p m q : ℚ) :
    ((p ≤ n ∧ m ≤ n ∧ q ≤ n) →
      (pyMaxSnd ("news", n) [("product", p), ("market", m), ("method", q)]).1 = "news") ∧
    ((n < p ∧ m ≤ p ∧ q ≤ p) →
      (pyMaxSnd ("news", n) [("product", p), ("market", m), ("method", q)]).1 = "product") ∧
    ((n < m ∧ p < m ∧ q ≤ m) →
      (pyMaxSnd ("news", n) [("product", p), ("market", m), ("method", q)]).1 = "market") ∧
    ((n < q ∧ p < q ∧ m < q) →
      (pyMaxSnd ("news", n) [("product", p), ("market", m), ("method", q)]).1 = "method") := by
  refine ⟨?_, ?_, ?_, ?_⟩ <;> rintro ⟨h1, h2, h3⟩ <;>
    simp only [pyMaxSnd] <;> split_ifs <;> simp_all <;> linarith

theorem posterior_eq_soft_of_not_override (llmCat : String) (confid : Option ℚ)
    (expert : List String) (weight : ℚ) (h : overrideFires expert weight = false) :
    posterior_category_with_priors llmCat confid expert weight
      = posteriorSoft llmCat confid expert weight := by
  match expert with
  | [] => rfl
  | e₁ :: e₂ :: es => rfl
  | [e] =>
    by_cases hw : HARD_WEIGHT ≤ weight
    · by_cases hc1 : containsSub e "要闻" = true
      · exfalso; simp [overrideFires, hw, hc1] at h
      · by_cases hc2 : containsSub e "产品" = true
        · exfalso; simp [overrideFires, hw, hc2] at h
        · by_cases hc3 : containsSub e "方法论" = true
          · exfalso; simp [overrideFires, hw, hc3] at h
          · by_cases hc4 : containsSub e "方法" = true
            · exfalso; simp [overrideFires, hw, hc4] at h
            · simp only [Bool.not_eq_true] at hc1 hc2 hc3 hc4
              simp [posterior_category_with_priors, hw, hc1, hc2, hc3, hc4]
    · simp [posterior_category_with_priors, hw]

/-- The renormalized soft distribution predicted by the (amended) spec. -/
def specSoftDist (llmCat : String) (confid : Option ℚ) (expert : List String)
    (weight : ℚ) : Base4 :=
  let b := specSoftBase llmCat confid expert weight
  ⟨b.news / b.total, b.product / b.total, b.market / b.total, b.method / b.total⟩

theorem confAdd_nonneg (confid : Option ℚ) : 0 ≤ confAdd confid := by
  unfold confAdd; positivity

theorem biasUnit_pos (weight : ℚ) : 0 < biasUnit weight := by
  unfold biasUnit
  have h : (1/2 : ℚ) ≤ max (1/2) (min weight 4) := le_max_left _ _
  linarith

theorem specSoftBase_total_pos (llmCat : String) (confid : Option ℚ)
    (expert : List String) (weight : ℚ) :
    0 < (specSoftBase llmCat confid expert weight).total := by
  have hadd : 0 ≤ confAdd confid := confAdd_nonneg confid
  have h1 : (0:ℚ) ≤ biasUnit weight * countTag expert "news" :=
    mul_nonneg (biasUnit_pos weight).le (Nat.cast_nonneg _)
  have h2 : (0:ℚ) ≤ biasUnit weight * countTag expert "product" :=
    mul_nonneg (biasUnit_pos weight).le (Nat.cast_nonneg _)
  have h3 : (0:ℚ) ≤ biasUnit weight * countTag expert "market" :=
    mul_nonneg (biasUnit_pos weight).le (Nat.cast_nonneg _)
  have h4 : (0:ℚ) ≤ biasUnit weight * countTag expert "method" :=
    mul_nonneg (biasUnit_pos weight).le (Nat.cast_nonneg _)
  simp only [specSoftBase, Base4.total]
  split_ifs <;> linarith

theorem posteriorSoft_eq_mk (llmCat : String) (confid : Option ℚ)
    (expert : List String) (weight : ℚ)
    (hcat : llmCat = "news" ∨ llmCat = "product" ∨ llmCat = "market" ∨ llmCat = "method") :
    posteriorSoft llmCat confid expert weight
      = some (mkSoftResult (specSoftBase llmCat confid expert weight)) := by
  rcases hcat with rfl | rfl | rfl | rfl
  · have hfold : List.foldl (biasFor (biasUnit weight))
        ⟨1/4 + confAdd confid, 1/4, 1/4, 1/4⟩ expert
        = specSoftBase "news" confid expert weight := by
      rw [foldl_biasFor]
      simp [specSoftBase]
    simp only [one_div] at hfold
    simp [posteriorSoft, addToCat, hfold]
  · have hfold : List.foldl (biasFor (biasUnit weight))
        ⟨1/4, 1/4 + confAdd confid, 1/4, 1/4⟩ expert
        = specSoftBase "product" confid expert weight := by
      rw [foldl_biasFor]
      simp [specSoftBase]
    simp only [one_div] at hfold
    simp [posteriorSoft, addToCat, hfold]
  · have hfold : List.foldl (biasFor (biasUnit weight))
        ⟨1/4, 1/4, 1/4 + confAdd confid, 1/4⟩ expert
        = specSoftBase "market" confid expert weight := by
      rw [foldl_biasFor]
      simp [specSoftBase]
    simp only [one_div] at hfold
    simp [posteriorSoft, addToCat, hfold]
  · have hfold : List.foldl (biasFor (biasUnit weight))
        ⟨1/4, 1/4, 1/4, 1/4 + confAdd confid⟩ expert
        = specSoftBase "method" confid expert weight := by
      rw [foldl_biasFor]
      simp [specSoftBase]
    simp only [one_div] at hfold
    simp [posteriorSoft, addToCat, hfold]

/-- C3 (amended): when the hard override does not fire and the raw label is
one of the four buckets, the posterior returns exactly the renormalized
distribution `specSoftDist` — uniform prior `1/4` per bucket, plus
`0.15 × clamp(c, 0, 1)` on the raw label's bucket where a missing or zero
confidence is first replaced by `0.6`, plus `0.12 × clamp(weight, 0.5, 4)`
per matching expertise tag, renormalized to sum `1` — and the final category
is the arg-max bucket, ties broken by first position in the fixed iteration
order news, product, market, method. -/
theorem soft_blend_spec (llmCat : String) (confid : Option ℚ) (expert : List String)
    (weight : ℚ) (hover : overrideFires expert weight = false)
    (hcat : llmCat = "news" ∨ llmCat = "product" ∨ llmCat = "market" ∨ llmCat = "method") :
    ∃ fc : String,
      posterior_category_with_priors llmCat confid expert weight
        = some (fc, distPairs (specSoftDist llmCat confid expert weight)) ∧
      (specSoftDist llmCat confid expert weight).news
        + (specSoftDist llmCat confid expert weight).product
        + (specSoftDist llmCat confid expert weight).market
        + (specSoftDist llmCat confid expert weight).method = 1 ∧
      (((specSoftDist llmCat confid expert weight).product
            ≤ (specSoftDist llmCat confid expert weight).news ∧
          (specSoftDist llmCat confid expert weight).market
            ≤ (specSoftDist llmCat confid expert weight).news ∧
          (specSoftDist llmCat confid expert weight).method
            ≤ (specSoftDist llmCat confid expert weight).news) → fc = "news") ∧
      (((specSoftDist llmCat confid expert weight).news
            < (specSoftDist llmCat confid expert weight).product ∧
          (specSoftDist llmCat confid expert weight).market
            ≤ (specSoftDist llmCat confid expert weight).product ∧
          (specSoftDist llmCat confid expert weight).method
            ≤ (specSoftDist llmCat confid expert weight).product) → fc = "product") ∧
      (((specSoftDist llmCat confid expert weight).news
            < (specSoftDist llmCat confid expert weight).market ∧
          (specSoftDist llmCat confid expert weight).product
            < (specSoftDist llmCat confid expert weight).market ∧
          (specSoftDist llmCat confid expert weight).method
            ≤ (specSoftDist llmCat confid expert weight).market) → fc = "market") ∧
      (((specSoftDist llmCat confid expert weight).news
            < (specSoftDist llmCat confid expert weight).method ∧
          (specSoftDist llmCat confid expert weight).product
            < (specSoftDist llmCat confid expert weight).method ∧
          (specSoftDist llmCat confid expert weight).market
            < (specSoftDist llmCat confid expert weight).method) → fc = "method") := by
  have htot : (specSoftBase llmCat confid expert weight).total ≠ 0 :=
    (specSoftBase_total_pos llmCat confid expert weight).ne'
  rw [posterior_eq_soft_of_not_override llmCat confid expert weight hover,
    posteriorSoft_eq_mk llmCat confid expert weight hcat]
  have hmk : mkSoftResult (specSoftBase llmCat confid expert weight)
      = ((pyMaxSnd ("news", (specSoftDist llmCat confid expert weight).news)
          [("product", (specSoftDist llmCat confid expert weight).product),
           ("market", (specSoftDist llmCat confid expert weight).market),
           ("method", (specSoftDist llmCat confid expert weight).method)]).1,
        distPairs (specSoftDist llmCat confid expert weight)) := by
    simp [mkSoftResult, specSoftDist, htot]
  rw [hmk]
  refine ⟨_, rfl, ?_, (pyMaxSnd4 _ _ _ _).1, (pyMaxSnd4 _ _ _ _).2.1,
    (pyMaxSnd4 _ _ _ _).2.2.1, (pyMaxSnd4 _ _ _ _).2.2.2⟩
  have hsum : (specSoftBase llmCat confid expert weight).news
      + (specSoftBase llmCat confid expert weight).product
      + (specSoftBase llmCat confid expert weight).market
      + (specSoftBase llmCat confid expert weight).method
      = (specSoftBase llmCat confid expert weight).total := rfl
  simp only [specSoftDist]
  rw [div_add_div_same, div_add_div_same, div_add_div_same, hsum]
  exact div_self htot

/-- Witness for `soft_blend_spec`: raw label `news`, confidence `0.5`, one
`产品` expertise tag at weight `2` (below the hard threshold). -/
theorem soft_blend_spec_witness :
    overrideFires ["产品"] 2 = false ∧
    (posterior_category_with_priors "news" (some (1/2)) ["产品"] 2).isSome := by
  have hover : overrideFires ["产品"] 2 = false := by
    norm_num [overrideFires, HARD_WEIGHT]
  refine ⟨hover, ?_⟩
  obtain ⟨fc, heq, _⟩ :=
    soft_blend_spec "news" (some (1/2)) ["产品"] 2 hover (Or.inl rfl)
  rw [heq]
  rfl

theorem addToCat_eq_none_iff (b : Base4) (cat : String) (x : ℚ) :
    addToCat b cat x = none ↔ cat ∉ (["news", "product", "market", "method"] : List String) := by
  unfold addToCat
  split_ifs with h1 h2 h3 h4 <;> simp_all

theorem posteriorSoft_eq_none_iff (llmCat : String) (confid : Option ℚ)
    (expert : List String) (weight : ℚ) :
    posteriorSoft llmCat confid expert weight = none ↔
      llmCat ∉ (["news", "product", "market", "method"] : List String) := by
  unfold posteriorSoft
  cases h : addToCat ⟨1/4, 1/4, 1/4, 1/4⟩ llmCat (confAdd confid) with
  | none =>
    simpa using (addToCat_eq_none_iff ⟨1/4, 1/4, 1/4, 1/4⟩ llmCat (confAdd confid)).mp h
  | some b1 =>
    simp only [Option.some.injEq]
    constructor
    · intro hfalse; cases hfalse
    · intro hmem
      exact absurd h (by simp [(addToCat_eq_none_iff _ _ _).mpr hmem])

/-- C10: (a) `posterior_category_with_priors` errors (the Python `KeyError`
on `base[llm_cat]`, modelled as `none`) exactly when the hard override does
not fire and the raw label is outside `{news, product, market, method}` —
e.g. the label `ignore` makes the lookup fail; (b) the upstream path —
`analyze_article_llm`'s label coercion followed by the bucketizer's
ignore-gate — only ever passes in-set labels, so every reachable call of the
posterior succeeds. -/
theorem posterior_totality :
    (∀ (llmCat : String) (confid : Option ℚ) (expert : List String) (weight : ℚ),
      posterior_category_with_priors llmCat confid expert weight = none ↔
        (overrideFires expert weight = false ∧
          llmCat ∉ (["news", "product", "market", "method"] : List String))) ∧
    (∀ (enableIgnore : Bool) (rawCat : Option String) (tags : List String) (cat : String),
      bucketizerGate enableIgnore (coerceCategory enableIgnore rawCat tags) = some cat →
        ∀ (confid : Option ℚ) (expert : List String) (weight : ℚ),
          (posterior_category_with_priors cat confid expert weight).isSome) := by
  have hnone : ∀ (llmCat : String) (confid : Option ℚ) (expert : List String) (weight : ℚ),
      posterior_category_with_priors llmCat confid expert weight = none ↔
        (overrideFires expert weight = false ∧
          llmCat ∉ (["news", "product", "market", "method"] : List String)) := by
    intro llmCat confid expert weight
    by_cases hover : overrideFires expert weight = true
    · constructor
      · intro hn
        exfalso
        match expert, hover with
        | [e], hover =>
          simp only [overrideFires, Bool.and_eq_true, decide_eq_true_eq] at hover
          obtain ⟨hw, hmark⟩ := hover
          by_cases h1 : containsSub e "要闻" = true
          · simp [posterior_category_with_priors, hw, h1] at hn
          · by_cases h2 : containsSub e "产品" = true
            · simp [posterior_category_with_priors, hw, h1, h2] at hn
            · by_cases h34 : (containsSub e "方法论" || containsSub e "方法") = true
              · simp [posterior_category_with_priors, hw, h1, h2, h34] at hn
              · simp only [Bool.not_eq_true, Bool.or_eq_false_iff] at h1 h2 h34
                simp [h1, h2, h34.1, h34.2] at hmark
      · intro ⟨hfired, _⟩
        rw [hover] at hfired
        cases hfired
    · have hover' : overrideFires expert weight = false := by
        cases h : overrideFires expert weight
        · rfl
        · exact absurd h hover
      rw [posterior_eq_soft_of_not_override llmCat confid expert weight hover',
        posteriorSoft_eq_none_iff]
      simp [hover']
  refine ⟨hnone, ?_⟩
  intro enableIgnore rawCat tags cat hgate confid expert weight
  have hcoerce : coerceCategory enableIgnore rawCat tags
        ∈ (["news", "product", "market", "method"] : List String)
      ∨ (enableIgnore = true ∧ coerceCategory enableIgnore rawCat tags = "ignore") := by
    cases enableIgnore with
    | false =>
      refine Or.inl ?_
      by_cases hmem : pyLower (rawCat.getD "")
          ∈ (["news", "product", "market", "method"] : List String)
      · simpa [coerceCategory, hmem] using hmem
      · by_cases htag : "市场数据" ∈ tags <;> simp [coerceCategory, hmem, htag]
    | true =>
      by_cases hmem : pyLower (rawCat.getD "")
          ∈ (["news", "product", "market", "method", "ignore"] : List String)
      · by_cases hig : pyLower (rawCat.getD "") = "ignore"
        · exact Or.inr ⟨rfl, by simp [coerceCategory, hmem, hig]⟩
        · refine Or.inl ?_
          have h4 : pyLower (rawCat.getD "")
              ∈ (["news", "product", "market", "method"] : List String) := by
            rcases (by simpa using hmem :
                pyLower (rawCat.getD "") = "news" ∨ pyLower (rawCat.getD "") = "product" ∨
                pyLower (rawCat.getD "") = "market" ∨ pyLower (rawCat.getD "") = "method" ∨
                pyLower (rawCat.getD "") = "ignore") with hm | hm | hm | hm | hm
            · simp [hm]
            · simp [hm]
            · simp [hm]
            · simp [hm]
            · exact absurd hm hig
          simpa [coerceCategory, hmem] using h4
      · refine Or.inl ?_
        by_cases htag : "市场数据" ∈ tags <;> simp [coerceCategory, hmem, htag]
  have hcat : cat ∈ (["news", "product", "market", "method"] : List String) := by
    unfold bucketizerGate at hgate
    rcases hcoerce with hmem | ⟨hflag, hig⟩
    · by_cases hig : (enableIgnore && coerceCategory enableIgnore rawCat tags == "ignore") = true
      · rw [if_pos hig] at hgate; cases hgate
      · rw [if_neg hig] at hgate
        rw [← Option.some.inj hgate]
        exact hmem
    · subst hflag
      rw [if_pos (by simp [hig])] at hgate
      cases hgate
  have hiff := hnone cat confid expert weight
  cases hres : posterior_category_with_priors cat confid expert weight with
  | none => exact absurd hcat (hiff.mp hres).2
  | some v => rfl

/-- Witness for `posterior_totality`: the coerced label `News` passes the
gate as `news` and the posterior succeeds on it; dually, `ignore` reaching
the soft path would fail. -/
theorem posterior_totality_witness :
    bucketizerGate true (coerceCategory true (some "News") []) = some "news" ∧
    (posterior_category_with_priors "news" none [] 1).isSome ∧
    posterior_category_with_priors "ignore" none [] 1 = none := by
  refine ⟨by decide, posterior_totality.2 true (some "News") [] "news" (by decide) none [] 1, ?_⟩
  exact (posterior_totality.1 "ignore" none [] 1).mpr ⟨by decide, by decide⟩

/-! ## Within-source near-duplicate drop (`src/utils/simhash_utils.py`) -/

/-- Popcount (Python `int.bit_count()`), structural in a fuel argument;
fuel `n` always suffices because the argument halves at every step. -/
def popCountAux : Nat → Nat → Nat
  | 0, _ => 0
  | fuel + 1, n => if n = 0 then 0 else n % 2 + popCountAux fuel (n / 2)

/-- Number of set bits of a natural number. -/
def popCount (n : Nat) : Nat := popCountAux n n

/-- `simhash_utils.hamming64(a, b)`: popcount of xor. -/
def hamming64 (a b : Nat) : Nat := popCount (a ^^^ b)

/-- One input item of `drop_near_duplicates_within_source`: the fields the
function reads (`it.get("source_id")`, `it.get("date")`,
`it.get("summary_raw")`, `it.get("title")`), with the Python `or ""`
defaulting already applied to the strings.  Items are identified by their
position in the input list — the Python code tracks distinct dict objects
via `id(it)`. -/
structure SrcItem where
  title : String
  summary_raw : String
  source_id : String
  date : Option Int
deriving DecidableEq

/-- The enriched tuple `(sid, h, dt, len(txt), it)` built in the first loop,
with the item replaced by its input position `idx`. -/
structure Enr where
  sid : String
  h : Nat
  date : Option Int
  plen : Nat
  idx : Nat
deriving DecidableEq

/-- The enrichment loop; `fp title summary_raw` stands for
`simhash64(norm_text_for_hash(title, txt))` (MD5-based, abstracted). -/
def enrich (fp : String → String → Nat) (items : List SrcItem) : List Enr :=
  (pyEnum 0 items).map (fun p =>
    ⟨p.2.source_id, fp p.2.title p.2.summary_raw, p.2.date, p.2.summary_raw.length, p.1⟩)

/-- Order on optional dates treating `none` as `datetime.min` (smallest). -/
def optLeBot : Option Int → Option Int → Bool
  | none, _ => true
  | some _, none => false
  | some x, some y => decide (x ≤ y)

/-- Order on optional dates treating `none` as `datetime.max` (largest). -/
def optLeTop : Option Int → Option Int → Bool
  | _, none => true
  | none, some _ => false
  | some x, some y => decide (x ≤ y)

/-- The per-policy stable sort of one source group: `latest` puts newest
first (missing dates last), `longest` longest text first, anything else
(`earliest`, the default) oldest first with missing dates last.  Python's
`list.sort` is stable, as is insertion sort. -/
def sortGroup (policy : String) (arr : List Enr) : List Enr :=
  if policy = "latest" then
    List.insertionSort (fun a b => optLeBot b.date a.date = true) arr
  else if policy = "longest" then
    List.insertionSort (fun a b => b.plen ≤ a.plen) arr
  else
    List.insertionSort (fun a b => optLeTop a.date b.date = true) arr

/-- The greedy keep/drop scan: an element is dropped when its fingerprint is
within `thr` of any hash in `used`, else kept and its hash appended. -/
def scanGreedy (thr : Nat) : List Enr → List Nat → List Enr
  | [], _ => []
  | e :: rest, used =>
    if used.any (fun hu => decide (hamming64 e.h hu ≤ thr)) then
      scanGreedy thr rest used
    else
      e :: scanGreedy thr rest (used ++ [e.h])

/-- The source keys in `defaultdict` insertion order. -/
def srcKeys (l : List Enr) : List String := dedupFirst (l.map (fun e => e.sid))

/-- The group of one source, in input order. -/
def groupOf (l : List Enr) (s : String) : List Enr := l.filter (fun e => e.sid == s)

/-- Kept elements of one group: groups of size at most one are kept outright
(the `len(arr) <= 1` branch), larger groups are policy-sorted and scanned. -/
def groupKept (thr : Nat) (policy : String) (arr : List Enr) : List Enr :=
  if arr.length ≤ 1 then arr else scanGreedy thr (sortGroup policy arr) []

/-- The set `kept_ids` (as a list of input positions). -/
def keptIdx (fp : String → String → Nat) (items : List SrcItem) (thr : Nat)
    (policy : String) : List Nat :=
  (srcKeys (enrich fp items)).flatMap
    (fun s => (groupKept thr policy (groupOf (enrich fp items) s)).map (fun e => e.idx))

/-- `simhash_utils.drop_near_duplicates_within_source`: the final
`[it for it in items if id(it) in kept_ids]` filter over the input order. -/
def drop_near_duplicates_within_source (fp : String → String → Nat)
    (items : List SrcItem) (thr : Nat) (policy : String) : List SrcItem :=
  ((pyEnum 0 items).filter
    (fun p => decide (p.1 ∈ keptIdx fp items thr policy))).map Prod.snd

/-- C9: the surviving items come back in the same relative order as the
original input list — the result is a sublist of the input. -/
theorem within_source_preserves_order (fp : String → String → Nat)
    (items : List SrcItem) (thr : Nat) (policy : String) :
    List.Sublist (drop_near_duplicates_within_source fp items thr policy) items := by
  unfold drop_near_duplicates_within_source
  have h2 := List.Sublist.map Prod.snd
    (List.filter_sublist (l := pyEnum 0 items)
      (p := fun p => decide (p.1 ∈ keptIdx fp items thr policy)))
  rwa [pyEnum_map_snd] at h2

theorem scanGreedy_sublist (thr : Nat) (g : List Enr) (used : List Nat) :
    List.Sublist (scanGreedy thr g used) g := by
  induction g generalizing used with
  | nil => simp [scanGreedy]
  | cons e rest ih =>
    by_cases hc : (used.any fun hu => decide (hamming64 e.h hu ≤ thr)) = true
    · simp only [scanGreedy, if_pos hc]
      exact List.Sublist.cons e (ih used)
    · simp only [scanGreedy, if_neg hc]
      exact List.Sublist.cons₂ e (ih (used ++ [e.h]))

theorem scanGreedy_append (thr : Nat) (g₁ g₂ : List Enr) (used : List Nat) :
    scanGreedy thr (g₁ ++ g₂) used
      = scanGreedy thr g₁ used
        ++ scanGreedy thr g₂ (used ++ (scanGreedy thr g₁ used).map (fun e => e.h)) := by
  induction g₁ generalizing used with
  | nil => simp [scanGreedy]
  | cons e rest ih =>
    by_cases hc : (used.any fun hu => decide (hamming64 e.h hu ≤ thr)) = true
    · simp only [List.cons_append, scanGreedy, if_pos hc]
      exact ih used
    · simp only [List.cons_append, scanGreedy, if_neg hc, List.append_eq]
      rw [ih (used ++ [e.h])]
      simp [List.map_cons, List.append_assoc]

theorem sortGroup_perm (policy : String) (arr : List Enr) :
    List.Perm (sortGroup policy arr) arr := by
  unfold sortGroup
  split_ifs <;> exact List.perm_insertionSort _ arr

theorem enrich_idx_nodup (fp : String → String → Nat) (items : List SrcItem) :
    ((enrich fp items).map (fun e => e.idx)).Nodup := by
  have h : (enrich fp items).map (fun e => e.idx) = (pyEnum 0 items).map Prod.fst := by
    simp [enrich, List.map_map]
  rw [h]
  exact nodup_pyEnum_fst 0 items

theorem groupKept_subset (thr : Nat) (policy : String) (arr : List Enr) :
    ∀ y ∈ groupKept thr policy arr, y ∈ arr := by
  unfold groupKept
  split_ifs with hlen
  · exact fun y hy => hy
  · intro y hy
    exact (sortGroup_perm policy arr).mem_iff.mp
      ((scanGreedy_sublist thr (sortGroup policy arr) []).mem hy)

theorem keptIdx_mem_iff (fp : String → String → Nat) (items : List SrcItem)
    (thr : Nat) (policy : String) (x : Enr) (hx : x ∈ enrich fp items) :
    (x.idx ∈ keptIdx fp items thr policy ↔
      x ∈ groupKept thr policy (groupOf (enrich fp items) x.sid)) := by
  have hnd := enrich_idx_nodup fp items
  constructor
  · intro hmem
    simp only [keptIdx, List.mem_flatMap, List.mem_map] at hmem
    obtain ⟨s', hs', y, hy, hidx⟩ := hmem
    have hy_group : y ∈ groupOf (enrich fp items) s' := groupKept_subset _ _ _ y hy
    have hy_l : y ∈ enrich fp items := (List.mem_filter.mp hy_group).1
    have hy_sid : y.sid = s' := by
      simpa using (List.mem_filter.mp hy_group).2
    have hyx : y = x :=
      List.inj_on_of_nodup_map hnd hy_l hx hidx
    subst hyx
    rwa [hy_sid]
  · intro hkept
    simp only [keptIdx, List.mem_flatMap, List.mem_map]
    refine ⟨x.sid, ?_, x, hkept, rfl⟩
    simp only [srcKeys, mem_dedupFirst, List.mem_map]
    exact ⟨x, hx, rfl⟩

theorem scanGreedy_mem_decomp (thr : Nat) (g₁ g₂ : List Enr) (x : Enr)
    (hnodup : ((g₁ ++ x :: g₂).map (fun e => e.idx)).Nodup) :
    (x ∈ scanGreedy thr (g₁ ++ x :: g₂) [] ↔
      ¬ ∃ y ∈ scanGreedy thr g₁ [], hamming64 x.h y.h ≤ thr) := by
  rw [List.map_append, List.nodup_append] at hnodup
  obtain ⟨hnd1, hnd2, hdisj⟩ := hnodup
  have hxg1 : x ∉ g₁ := by
    intro hmem
    exact absurd (by simp : x.idx ∈ (x :: g₂).map (fun e => e.idx))
      (hdisj (List.mem_map_of_mem _ hmem))
  have hxg2 : x ∉ g₂ := by
    intro hmem
    rw [List.map_cons, List.nodup_cons] at hnd2
    exact hnd2.1 (List.mem_map_of_mem _ hmem)
  rw [scanGreedy_append]
  simp only [List.nil_append, List.mem_append]
  have hxnotleft : x ∉ scanGreedy thr g₁ [] := fun hmem =>
    hxg1 ((scanGreedy_sublist thr g₁ []).mem hmem)
  by_cases hc : (((scanGreedy thr g₁ []).map (fun e => e.h)).any
      fun hu => decide (hamming64 x.h hu ≤ thr)) = true
  · simp only [scanGreedy, if_pos hc]
    have hxnotright : x ∉ scanGreedy thr g₂ ((scanGreedy thr g₁ []).map (fun e => e.h)) :=
      fun hmem => hxg2 ((scanGreedy_sublist thr g₂ _).mem hmem)
    simp only [List.any_eq_true, List.mem_map, decide_eq_true_eq] at hc
    obtain ⟨hu, ⟨y, hy, rfl⟩, hle⟩ := hc
    constructor
    · rintro (h | h)
      · exact absurd h hxnotleft
      · exact absurd h hxnotright
    · intro hno
      exact absurd ⟨y, hy, hle⟩ hno
  · simp only [scanGreedy, if_neg hc]
    simp only [List.any_eq_true, List.mem_map, decide_eq_true_eq, not_exists] at hc
    push_neg at hc
    constructor
    · intro _
      rintro ⟨y, hy, hle⟩
      exact absurd hle (not_le.mpr (hc y.h ⟨y, hy, rfl⟩))
    · intro _
      exact Or.inr (List.mem_cons_self x _)

/-- C4: in the within-source pass, for every source group and keep-policy,
after the policy sort an item is kept by the greedy scan (its index lands in
`kept_ids`) exactly when its fingerprint is NOT within the Hamming threshold
of the fingerprint of some item of the same source kept earlier in the scan;
`g₁` is the sorted prefix strictly before the item. -/
theorem within_source_greedy_drop_iff (fp : String → String → Nat)
    (items : List SrcItem) (thr : Nat) (policy : String) (s : String)
    (g₁ g₂ : List Enr) (x : Enr)
    (hdecomp : sortGroup policy (groupOf (enrich fp items) s) = g₁ ++ x :: g₂) :
    (x.idx ∈ keptIdx fp items thr policy ↔
      ¬ ∃ y ∈ scanGreedy thr g₁ [], hamming64 x.h y.h ≤ thr) := by
  have hlnd := enrich_idx_nodup fp items
  have hperm := sortGroup_perm policy (groupOf (enrich fp items) s)
  have hx_sorted : x ∈ sortGroup policy (groupOf (enrich fp items) s) := by
    rw [hdecomp]; simp
  have hx_group : x ∈ groupOf (enrich fp items) s := hperm.mem_iff.mp hx_sorted
  have hx_l : x ∈ enrich fp items := (List.mem_filter.mp hx_group).1
  have hx_sid : x.sid = s := by simpa using (List.mem_filter.mp hx_group).2
  have hgroupnd : ((groupOf (enrich fp items) s).map (fun e => e.idx)).Nodup :=
    ((List.filter_sublist (l := enrich fp items)).map (fun e => e.idx)).nodup hlnd
  have hgnd : ((g₁ ++ x :: g₂).map (fun e => e.idx)).Nodup := by
    rw [← hdecomp]
    exact (hperm.map (fun e => e.idx)).nodup_iff.mpr hgroupnd
  rw [keptIdx_mem_iff fp items thr policy x hx_l, hx_sid]
  by_cases hlen : (groupOf (enrich fp items) s).length ≤ 1
  · have hglen : g₁.length + (g₂.length + 1) ≤ 1 := by
      have := hperm.length_eq
      rw [hdecomp] at this
      simpa [List.length_append] using this.trans_le hlen
    have hg1 : g₁ = [] := List.length_eq_zero.mp (by omega)
    have hg2 : g₂ = [] := List.length_eq_zero.mp (by omega)
    subst hg1; subst hg2
    simp only [scanGreedy, List.not_mem_nil, false_and, exists_false, not_false_iff,
      iff_true]
    unfold groupKept
    rw [if_pos hlen]
    exact hx_group
  · have hkept : groupKept thr policy (groupOf (enrich fp items) s)
        = scanGreedy thr (g₁ ++ x :: g₂) [] := by
      unfold groupKept
      rw [if_neg hlen, hdecomp]
    rw [hkept]
    exact scanGreedy_mem_decomp thr g₁ g₂ x hgnd

/-- Witness for `within_source_greedy_drop_iff`: two same-source items with
fingerprints `0` and `1` (Hamming distance `1 ≤ 4`); the later one is
dropped by the greedy scan. -/
theorem within_source_greedy_drop_iff_witness :
    sortGroup "earliest" (groupOf (enrich
        (fun t _ => if t = "a" then 0 else 1)
        [⟨"a", "x", "s", some 1⟩, ⟨"b", "y", "s", some 2⟩]) "s")
      = [(⟨"s", 0, some 1, 1, 0⟩ : Enr)] ++ (⟨"s", 1, some 2, 1, 1⟩ : Enr) :: [] ∧
    (⟨"s", 1, some 2, 1, 1⟩ : Enr).idx
      ∉ keptIdx (fun t _ => if t = "a" then 0 else 1)
          [⟨"a", "x", "s", some 1⟩, ⟨"b", "y", "s", some 2⟩] 4 "earliest" := by
  have hdecomp : sortGroup "earliest" (groupOf (enrich
        (fun t _ => if t = "a" then 0 else 1)
        [⟨"a", "x", "s", some 1⟩, ⟨"b", "y", "s", some 2⟩]) "s")
      = [(⟨"s", 0, some 1, 1, 0⟩ : Enr)] ++ (⟨"s", 1, some 2, 1, 1⟩ : Enr) :: [] := by
    decide
  refine ⟨hdecomp, ?_⟩
  intro hmem
  exact (within_source_greedy_drop_iff (fun t _ => if t = "a" then 0 else 1)
    [⟨"a", "x", "s", some 1⟩, ⟨"b", "y", "s", some 2⟩] 4 "earliest" "s"
    [(⟨"s", 0, some 1, 1, 0⟩ : Enr)] [] (⟨"s", 1, some 2, 1, 1⟩ : Enr) hdecomp).mp
    hmem (by decide)

/-! ## Batch/offline dedup (`src/post_process_dedup.py`) -/

/-- `post_process_dedup.hamdist64(a, b)`: popcount of xor. -/
def hamdist64 (a b : Nat) : Nat := popCount (a ^^^ b)

/-- The `Item` dataclass after `prepare()`: `norm`, `sh` and `shing` hold the
normalized text, the MD5-based simhash and the 8-shingle set (the text
processing itself is upstream of the properties verified here, so the
prepared values are carried as fields). -/
structure Item where
  id : String
  title : String
  text : String
  url : String
  date : String
  source_id : String
  raw : String
  norm : String
  sh : Nat
  shing : Finset String
deriving DecidableEq

/-- `urlparse(it.url).netloc if it.url else ""`; `netloc` abstracts
`urllib.parse.urlparse(...).netloc`. -/
def hostOf (netloc : String → String) (it : Item) : String :=
  if it.url = "" then "" else netloc it.url

/-- The three-condition candidate test (length gap at most 200, Jaccard at
least the threshold, Hamming at most the threshold) applied to a pair inside
`add_pairs`. -/
def pairCond (jt : ℚ) (ht : Nat) (A B : Item) : Bool :=
  decide (((A.norm.length : Int) - (B.norm.length : Int)).natAbs ≤ 200)
    && decide (jt ≤ jaccard A.shing B.shing)
    && decide (hamdist64 A.sh B.sh ≤ ht)

/-- `add_pairs(indices)`: all increasing index pairs of the list passing
`cond`, in scan order. -/
def addPairs (cond : Item → Item → Bool) : List (Nat × Item) → List (Nat × Nat)
  | [] => []
  | p :: rest =>
    ((rest.filter (fun q => cond p.2 q.2)).map (fun q => (p.1, q.1)))
      ++ addPairs cond rest

/-- `post_process_dedup.candidate_pairs(items, jaccard_th, ham_th)`:
all-pairs within each URL-host bucket, then a global all-pairs fallback when
the collection has at most 400 items. -/
def candidate_pairs (netloc : String → String) (items : List Item)
    (jt : ℚ) (ht : Nat) : List (Nat × Nat) :=
  let enum := pyEnum 0 items
  let hosts := dedupFirst (enum.map (fun p => hostOf netloc p.2))
  let bucketPairs := hosts.flatMap (fun hst =>
    let idxs := enum.filter (fun p => hostOf netloc p.2 == hst)
    if 1 < idxs.length then addPairs (pairCond jt ht) idxs else [])
  bucketPairs ++ (if items.length ≤ 400 then addPairs (pairCond jt ht) enum else [])

theorem one_lt_length_of_two_mem {l : List α} {a b : α}
    (ha : a ∈ l) (hb : b ∈ l) (hne : a ≠ b) : 1 < l.length := by
  match l with
  | [] => cases ha
  | [x] =>
    rw [List.mem_singleton] at ha hb
    exact absurd (ha.trans hb.symm) hne
  | x :: y :: rest =>
    simp only [List.length_cons]
    omega

theorem mem_addPairs (cond : Item → Item → Bool) (l : List (Nat × Item))
    (hl : l.Pairwise (fun p q => p.1 < q.1)) (i j : Nat) :
    ((i, j) ∈ addPairs cond l ↔
      ∃ p ∈ l, ∃ q ∈ l, p.1 = i ∧ q.1 = j ∧ p.1 < q.1 ∧ cond p.2 q.2 = true) := by
  induction l with
  | nil => simp [addPairs]
  | cons p rest ih =>
    rw [List.pairwise_cons] at hl
    obtain ⟨hp, hrest⟩ := hl
    simp only [addPairs, List.mem_append, List.mem_map, List.mem_filter]
    constructor
    · rintro (⟨q, ⟨hq, hcond⟩, hpq⟩ | hmem)
      · injection hpq with h1 h2
        exact ⟨p, List.mem_cons_self p rest, q, List.mem_cons_of_mem p hq,
          h1, h2, hp q hq, hcond⟩
      · obtain ⟨p', hp', q', hq', h1, h2, h3, h4⟩ := ih hrest |>.mp hmem
        exact ⟨p', List.mem_cons_of_mem p hp', q', List.mem_cons_of_mem p hq',
          h1, h2, h3, h4⟩
    · rintro ⟨p', hp', q', hq', rfl, rfl, hlt, hcond⟩
      rcases List.mem_cons.mp hp' with hpp | hp'
      · rcases List.mem_cons.mp hq' with hqq | hq'
        · exfalso
          rw [hpp, hqq] at hlt
          omega
        · refine Or.inl ⟨q', ⟨hq', ?_⟩, ?_⟩
          · rwa [hpp] at hcond
          · rw [hpp]
      · rcases List.mem_cons.mp hq' with hqq | hq'
        · exfalso
          have h5 := hp p' hp'
          rw [hqq] at hlt
          omega
        · exact Or.inr ((ih hrest).mpr ⟨p', hp', q', hq', rfl, rfl, hlt, hcond⟩)

theorem mem_pyEnum_zero (l : List α) (p : Nat × α) :
    p ∈ pyEnum 0 l ↔ l.get? p.1 = some p.2 := by
  rw [mem_pyEnum]
  constructor
  · rintro ⟨k, hk, h1, h2⟩
    rw [h1]
    simpa using h2
  · intro h
    exact ⟨p.1, (List.get?_eq_some.mp h).1, by omega, h⟩

/-- C5: a pair of indices is emitted by `candidate_pairs` exactly when the
three conditions hold (length gap ≤ 200, Jaccard ≥ threshold, Hamming ≤
threshold) and the pair is recalled either by a shared URL-host bucket or by
the global fallback that runs when the collection has at most 400 items. -/
theorem candidate_pairs_mem_iff (netloc : String → String) (items : List Item)
    (jt : ℚ) (ht : Nat) (i j : Nat) :
    ((i, j) ∈ candidate_pairs netloc items jt ht ↔
      ∃ A B, items.get? i = some A ∧ items.get? j = some B ∧ i < j ∧
        ((((A.norm.length : Int) - (B.norm.length : Int)).natAbs ≤ 200) ∧
          jt ≤ jaccard A.shing B.shing ∧ hamdist64 A.sh B.sh ≤ ht) ∧
        (hostOf netloc A = hostOf netloc B ∨ items.length ≤ 400)) := by
  have hpw := pyEnum_fst_lt 0 items
  constructor
  · intro hmem
    simp only [candidate_pairs, List.mem_append] at hmem
    rcases hmem with hb | hg
    · simp only [List.mem_flatMap] at hb
      obtain ⟨hst, hhst, hpair⟩ := hb
      by_cases hlen : 1 < ((pyEnum 0 items).filter
          (fun p => hostOf netloc p.2 == hst)).length
      · rw [if_pos hlen] at hpair
        have hpwf : ((pyEnum 0 items).filter
            (fun p => hostOf netloc p.2 == hst)).Pairwise (fun p q => p.1 < q.1) :=
          hpw.filter _
        obtain ⟨p, hp, q, hq, h1, h2, hlt, hcond⟩ :=
          (mem_addPairs _ _ hpwf i j).mp hpair
        obtain ⟨hp_enum, hp_host⟩ := List.mem_filter.mp hp
        obtain ⟨hq_enum, hq_host⟩ := List.mem_filter.mp hq
        subst h1; subst h2
        refine ⟨p.2, q.2, (mem_pyEnum_zero items p).mp hp_enum,
          (mem_pyEnum_zero items q).mp hq_enum, hlt, ?_, Or.inl ?_⟩
        · simpa [pairCond, Bool.and_eq_true, decide_eq_true_eq, and_assoc] using hcond
        · rw [(by simpa using hp_host : hostOf netloc p.2 = hst),
            (by simpa using hq_host : hostOf netloc q.2 = hst)]
      · rw [if_neg hlen] at hpair
        cases hpair
    · by_cases hlen : items.length ≤ 400
      · rw [if_pos hlen] at hg
        obtain ⟨p, hp, q, hq, h1, h2, hlt, hcond⟩ := (mem_addPairs _ _ hpw i j).mp hg
        subst h1; subst h2
        refine ⟨p.2, q.2, (mem_pyEnum_zero items p).mp hp,
          (mem_pyEnum_zero items q).mp hq, hlt, ?_, Or.inr hlen⟩
        simpa [pairCond, Bool.and_eq_true, decide_eq_true_eq, and_assoc] using hcond
      · rw [if_neg hlen] at hg
        cases hg
  · rintro ⟨A, B, hA, hB, hij, hconds, hroute⟩
    have hpA : (i, A) ∈ pyEnum 0 items := (mem_pyEnum_zero items (i, A)).mpr hA
    have hpB : (j, B) ∈ pyEnum 0 items := (mem_pyEnum_zero items (j, B)).mpr hB
    have hcond : pairCond jt ht A B = true := by
      simp only [pairCond, Bool.and_eq_true, decide_eq_true_eq]
      exact ⟨⟨hconds.1, hconds.2.1⟩, hconds.2.2⟩
    simp only [candidate_pairs, List.mem_append]
    rcases hroute with hhost | hlen
    · left
      simp only [List.mem_flatMap]
      refine ⟨hostOf netloc A, ?_, ?_⟩
      · simp only [mem_dedupFirst, List.mem_map]
        exact ⟨(i, A), hpA, rfl⟩
      · have hiA : (i, A) ∈ (pyEnum 0 items).filter
            (fun p => hostOf netloc p.2 == hostOf netloc A) :=
          List.mem_filter.mpr ⟨hpA, by simp⟩
        have hjB : (j, B) ∈ (pyEnum 0 items).filter
            (fun p => hostOf netloc p.2 == hostOf netloc A) :=
          List.mem_filter.mpr ⟨hpB, by simp [hhost]⟩
        have hne : ((i, A) : Nat × Item) ≠ (j, B) := by
          intro h
          injection h with h1 _
          omega
        rw [if_pos (one_lt_length_of_two_mem hiA hjB hne)]
        exact (mem_addPairs _ _ (hpw.filter _) i j).mpr
          ⟨(i, A), hiA, (j, B), hjB, rfl, rfl, hij, hcond⟩
    · right
      rw [if_pos hlen]
      exact (mem_addPairs _ _ hpw i j).mpr
        ⟨(i, A), hpA, (j, B), hpB, rfl, rfl, hij, hcond⟩

/-- A parsed Python/JSON value (result of `json.loads`). -/
inductive PyVal
  | pynull
  | pybool (b : Bool)
  | pyint (n : Int)
  | pystr (s : String)
  | pylist (l : List PyVal)
  | pydict (fields : List (String × PyVal))

/-- Python truthiness (`bool(x)`) of a JSON value. -/
def jTruthy : PyVal → Bool
  | .pynull => false
  | .pybool b => b
  | .pyint n => !(n == 0)
  | .pystr s => !s.isEmpty
  | .pylist l => !l.isEmpty
  | .pydict f => !f.isEmpty

/-- `dict.get(k)` on parsed JSON (keys of a parsed object are unique). -/
def dictGet (fields : List (String × PyVal)) (k : String) : Option PyVal :=
  (fields.find? (fun p => p.1 == k)).map Prod.snd

/-- Python `str()` of a JSON value, as used on the `reason` field (container
renderings are abbreviated; no verified property depends on them). -/
def pyStrOf : PyVal → String
  | .pystr s => s
  | .pynull => "None"
  | .pybool true => "True"
  | .pybool false => "False"
  | .pyint n => toString n
  | .pylist _ => "[...]"
  | .pydict _ => "{...}"

/-- Index of the first occurrence of a character. -/
def idxOfChar (c : Char) : List Char → Option Nat
  | [] => none
  | x :: xs => if x = c then some 0 else (idxOfChar c xs).map (· + 1)

/-- `msg.find("{") / msg.rfind("}")` slicing in `llm_confirm`: when an
opening brace occurs before a closing one, cut to that bracketed span,
otherwise leave the message unchanged. -/
def braceSlice (s : String) : String :=
  let cs := s.data
  match idxOfChar '\x7b' cs with
  | none => s
  | some m1 =>
    match idxOfChar '\x7d' cs.reverse with
    | none => s
    | some r =>
      let m2 := cs.length - 1 - r
      if m1 < m2 then String.mk ((cs.drop m1).take (m2 + 1 - m1)) else s

/-- One piece of a `str.format` template as the formatter scans it: a literal
chunk, or a replacement field (written between a `\x7b` and the next `\x7d`
in the source string; the part after a `:` inside the field is the format
spec, which never matters here because the keyword lookup of the field name
precedes any spec processing and is what fails). -/
inductive FmtSeg
  | lit (s : String)
  | field (name : String)

/-- `PROMPT_TMPL` as `str.format` reads it: the scanner takes everything from
a `\x7b` up to the first following `\x7d` as one replacement field and
everything before the first `:` inside it as the field name, so the
template's literal JSON example contributes a replacement field named
`"duplicate"` (quotes included) in addition to the intended `a` and `b`. -/
def PROMPT_TMPL_SEGS : List FmtSeg :=
  [FmtSeg.lit "你是行业资讯去重助手。判断两条中文资讯是否“表达的是同一实质事件/事实”，\n不是看文字是否完全相同，而是看语义是否等价（同一主体+同一事件+数据/结论近似）。\n输出 JSON：",
   FmtSeg.field "\"duplicate\"",
   FmtSeg.lit "。\n\nA: ",
   FmtSeg.field "a",
   FmtSeg.lit "\nB: ",
   FmtSeg.field "b",
   FmtSeg.lit "\n"]

/-- Keyword lookup performed by `str.format` for a replacement field. -/
def fmtLookup (kwargs : List (String × String)) (name : String) : Option String :=
  (kwargs.find? (fun p => p.1 == name)).map Prod.snd

/-- `template.format(**kwargs)`: substitute each field left to right, raising
`KeyError` at the first field whose name is not a passed keyword. -/
def pyFormat (kwargs : List (String × String)) : List FmtSeg → Except String String
  | [] => Except.ok ""
  | FmtSeg.lit s :: rest => (pyFormat kwargs rest).map (fun t => s ++ t)
  | FmtSeg.field n :: rest =>
    match fmtLookup kwargs n with
    | none => Except.error ("KeyError: " ++ n)
    | some v => (pyFormat kwargs rest).map (fun t => v ++ t)

/-- `post_process_dedup.llm_confirm`: the `PROMPT_TMPL.format(a=…, b=…)` call
on line 190 runs BEFORE the `try` block that starts on line 191, so an
exception raised by the formatting escapes the function (`Except.error`);
only the API-call-plus-parse below it is guarded by the fail-open `except`
handler (the `Except.ok` payload). `resp` is either the raw response content
or the exception text of the guarded call, and `parse` abstracts
`json.loads` (returning `none` on unparseable input). -/
def llm_confirm (parse : String → Option PyVal) (a b : Item)
    (resp : Except String String) : Except String (Bool × String) :=
  let text_a := (a.title ++ "。" ++ a.text).take 500
  let text_b := (b.title ++ "。" ++ b.text).take 500
  match pyFormat [("a", text_a), ("b", text_b)] PROMPT_TMPL_SEGS with
  | Except.error e => Except.error e
  | Except.ok _prompt =>
    Except.ok (match resp with
      | Except.error e => (false, "LLM 调用失败：" ++ e)
      | Except.ok content =>
        let msg := braceSlice content.trim
        match parse msg with
        | none => (false, "LLM 调用失败：json.decoder.JSONDecodeError")
        | some (PyVal.pydict fields) =>
          (jTruthy ((dictGet fields "duplicate").getD PyVal.pynull),
            pyStrOf ((dictGet fields "reason").getD (PyVal.pystr "")))
        | some _ => (false, "LLM 调用失败：AttributeError"))

instance : Inhabited Item := ⟨⟨"", "", "", "", "", "", "", "", 0, ∅⟩⟩

/-- The strong rule of the edge loop: same `urlparse(url).netloc` (no
empty-url special case here, unlike the bucketing) and Jaccard at least
`0.8`. -/
def strongRule (netloc : String → String) (A B : Item) : Bool :=
  netloc A.url == netloc B.url && decide ((4 : ℚ)/5 ≤ jaccard A.shing B.shing)

/-- The confirmed-duplicate edge loop of `main` (lines 248-260): a strong-rule
pair is accepted outright; otherwise, while `use_llm` holds and the running
pair index is below `max_pairs`, `llm_confirm` is consulted and an edge is
added only when it answers duplicate — and an exception escaping
`llm_confirm` is not caught anywhere in `main`, so it aborts the whole loop
(the `Except.error` case). -/
def buildEdges (netloc : String → String) (parse : String → Option PyVal)
    (useLlm : Bool) (maxPairs : Nat) (resps : Nat → Except String String)
    (items : List Item) :
    Nat → List (Nat × Nat) → Except String (List (Nat × Nat × String))
  | _, [] => Except.ok []
  | idx, (ia, ib) :: rest =>
    let A := items.getD ia default
    let B := items.getD ib default
    if strongRule netloc A B then
      (buildEdges netloc parse useLlm maxPairs resps items (idx + 1) rest).map
        (fun es => (ia, ib, "同域高相似") :: es)
    else if useLlm && decide (idx < maxPairs) then
      match llm_confirm parse A B (resps idx) with
      | Except.error e => Except.error e
      | Except.ok r =>
        if r.1 then
          (buildEdges netloc parse useLlm maxPairs resps items (idx + 1) rest).map
            (fun es => (ia, ib, if r.2 = "" then "LLM 判定重复" else r.2) :: es)
        else buildEdges netloc parse useLlm maxPairs resps items (idx + 1) rest
    else buildEdges netloc parse useLlm maxPairs resps items (idx + 1) rest

/-- Union-find `find` with explicit fuel (the Python version also does path
compression, which changes no root). -/
def ufFind (parent : List Nat) : Nat → Nat → Nat
  | 0, x => x
  | fuel + 1, x =>
    let p := parent.getD x x
    if p = x then x else ufFind parent fuel p

/-- Union-find `union`: graft the root of `b` onto the root of `a`. -/
def ufUnion (parent : List Nat) (a b : Nat) : List Nat :=
  let ra := ufFind parent parent.length a
  let rb := ufFind parent parent.length b
  if ra ≠ rb then parent.set rb ra else parent

/-- `parent = list(range(len(items)))` followed by one `union` per edge. -/
def buildParent (n : Nat) (edges : List (Nat × Nat × String)) : List Nat :=
  edges.foldl (fun par e => ufUnion par e.1 e.2.1) (List.range n)

/-- The cluster roots in first-occurrence order (`defaultdict` insertion). -/
def clusterRoots (parent : List Nat) (n : Nat) : List Nat :=
  dedupFirst ((List.range n).map (fun i => ufFind parent parent.length i))

/-- Members of the cluster rooted at `r`. -/
def clusterOf (parent : List Nat) (n : Nat) (r : Nat) : List Nat :=
  (List.range n).filter (fun i => ufFind parent parent.length i == r)

/-- The per-cluster keep-policy sort (`latest` newest date-string first,
`longest` longest normalized text first, default oldest first). -/
def sortCluster (keepPol : String) (grp : List Item) : List Item :=
  if keepPol = "latest" then List.insertionSort (fun a b => b.date ≤ a.date) grp
  else if keepPol = "longest" then
    List.insertionSort (fun a b => b.norm.length ≤ a.norm.length) grp
  else List.insertionSort (fun a b => a.date ≤ b.date) grp

/-- `items.index(grp[0])`: first position whose item equals the given one. -/
def pyIndexOf (items : List Item) (x : Item) : Nat :=
  items.findIdx (fun y => y == x)

/-- One audit CSV row (`dropped_rows` entry). -/
structure AuditRow where
  kept_id : String
  kept_title : String
  dropped_id : String
  dropped_title : String
  reason : String
deriving DecidableEq

/-- The reason lookup over `dup_edges` for a (kept, dropped) pair — first
matching edge wins, empty string when none matches. -/
def findReason (edges : List (Nat × Nat × String)) (k i : Nat) : String :=
  match edges.find? (fun e =>
      (e.1 == k && e.2.1 == i) || (e.2.1 == k && e.1 == i) || (e.1 == i && e.2.1 == k)) with
  | some e => e.2.2
  | none => ""

/-- One audit row for dropped member `i` of the cluster kept by `k`. -/
def mkAudit (items : List Item) (edges : List (Nat × Nat × String))
    (k i : Nat) : AuditRow :=
  ⟨(items.getD k default).id, (items.getD k default).title,
    (items.getD i default).id, (items.getD i default).title,
    (if findReason edges k i = "" then "同簇合并" else findReason edges k i)⟩

/-- The cluster-selection loop of `main` (lines 281-308): singleton clusters
keep their item; larger clusters keep the head of the policy sort and emit
one audit row per dropped member. -/
def dedupKeepAudit (keepPol : String) (items : List Item)
    (edges : List (Nat × Nat × String)) : List Nat × List AuditRow :=
  let n := items.length
  let parent := buildParent n edges
  (clusterRoots parent n).foldl (fun acc r =>
    let idxs := clusterOf parent n r
    if idxs.length = 1 then (acc.1 ++ idxs, acc.2)
    else
      match sortCluster keepPol (idxs.filterMap (fun i => items.get? i)) with
      | [] => acc
      | g0 :: _ =>
        let k := pyIndexOf items g0
        (acc.1 ++ [k],
          acc.2 ++ (idxs.filter (fun i => !(i == k))).map (fun i => mkAudit items edges k i)))
    ([], [])

/-- The complete offline run on already-prepared items: recall candidate
pairs, confirm edges, cluster, select survivors, and report the surviving
indices in input order (the order the deduplicated Markdown is written in)
together with the audit rows; an exception escaping the edge loop aborts the
run before any output is produced (the `Except.error` case). -/
def dedupRun (netloc : String → String) (parse : String → Option PyVal)
    (useLlm : Bool) (maxPairs : Nat) (keepPol : String) (jt : ℚ) (ht : Nat)
    (resps : Nat → Except String String) (items : List Item) :
    Except String (List Nat × List AuditRow) :=
  let pairs := candidate_pairs netloc items jt ht
  match buildEdges netloc parse useLlm maxPairs resps items 0 pairs with
  | Except.error e => Except.error e
  | Except.ok edges =>
    let ka := dedupKeepAudit keepPol items edges
    Except.ok ((List.range items.length).filter (fun i => decide (i ∈ ka.1)), ka.2)

theorem getD_range (n i : Nat) : (List.range n).getD i i = i := by
  by_cases h : i < n
  · simp [List.getD_eq_getElem?_getD, List.getElem?_range h]
  · have hnone : (List.range n)[i]? = none := by
      rw [List.getElem?_eq_none_iff]
      simpa using Nat.le_of_not_lt h
    simp [List.getD_eq_getElem?_getD, hnone]

theorem ufFind_range (n fuel i : Nat) : ufFind (List.range n) fuel i = i := by
  cases fuel with
  | zero => rfl
  | succ fuel =>
    simp only [ufFind, getD_range]
    simp

theorem foldl_append_of_step {β γ : Type} (f : (List γ × List β) → γ → (List γ × List β)) :
    ∀ (roots : List γ), (∀ acc r, r ∈ roots → f acc r = (acc.1 ++ [r], acc.2)) →
    ∀ acc, roots.foldl f acc = (acc.1 ++ roots, acc.2)
  | [], _, acc => by simp
  | r :: rs, hstep, acc => by
    rw [List.foldl_cons, hstep acc r (List.mem_cons_self _ _),
      foldl_append_of_step f rs
        (fun acc' r' hr' => hstep acc' r' (List.mem_cons_of_mem r hr'))]
    simp

theorem dedupFirstAux_eq_self [DecidableEq α] (seen : List α) (l : List α)
    (hnd : l.Nodup) (hout : ∀ a ∈ l, a ∉ seen) : dedupFirstAux seen l = l := by
  induction l generalizing seen with
  | nil => rfl
  | cons a l ih =>
    rw [List.nodup_cons] at hnd
    rw [dedupFirstAux, if_neg (hout a (List.mem_cons_self a l))]
    congr 1
    refine ih (seen ++ [a]) hnd.2 ?_
    intro b hb
    simp only [List.mem_append, List.mem_singleton]
    rintro (hseen | rfl)
    · exact hout b (List.mem_cons_of_mem a hb) hseen
    · exact hnd.1 hb

theorem dedupFirst_eq_self [DecidableEq α] (l : List α) (hnd : l.Nodup) :
    dedupFirst l = l :=
  dedupFirstAux_eq_self [] l hnd (by simp)

theorem filter_beq_singleton [DecidableEq α] (l : List α) (r : α)
    (hnd : l.Nodup) (hr : r ∈ l) : l.filter (fun i => i == r) = [r] := by
  induction l with
  | nil => cases hr
  | cons a l ih =>
    rw [List.nodup_cons] at hnd
    rcases List.mem_cons.mp hr with rfl | hr
    · rw [List.filter_cons_of_pos (by simp)]
      rw [List.filter_eq_nil.mpr, List.cons.injEq]
      · exact ⟨rfl, rfl⟩
      · intro b hb
        simp only [beq_iff_eq]
        rintro rfl
        exact hnd.1 hb
    · rw [List.filter_cons_of_neg, ih hnd.2 hr]
      simp only [beq_iff_eq]
      rintro rfl
      exact hnd.1 hr

theorem dedupKeepAudit_no_edges (keepPol : String) (items : List Item) :
    dedupKeepAudit keepPol items [] = (List.range items.length, []) := by
  unfold dedupKeepAudit buildParent
  simp only [List.foldl_nil]
  have hroots : clusterRoots (List.range items.length) items.length
      = List.range items.length := by
    unfold clusterRoots
    have hfun : (fun i => ufFind (List.range items.length)
        (List.range items.length).length i) = (fun i : Nat => i) :=
      funext fun i => ufFind_range items.length _ i
    rw [hfun, show (List.range items.length).map (fun i : Nat => i)
      = List.range items.length by simp]
    exact dedupFirst_eq_self _ (List.nodup_range _)
  have hcluster : ∀ r ∈ List.range items.length,
      clusterOf (List.range items.length) items.length r = [r] := by
    intro r hr
    unfold clusterOf
    have hfun : (fun i => ufFind (List.range items.length)
        (List.range items.length).length i == r) = (fun i => i == r) :=
      funext fun i => by rw [ufFind_range]
    rw [hfun]
    exact filter_beq_singleton _ r (List.nodup_range _) hr
  rw [hroots]
  refine (foldl_append_of_step _ (List.range items.length)
    (fun acc r hr => ?_) ([], [])).trans (by simp)
  simp [hcluster r hr]

/-- C7: refuted as stated — every oracle call crashes instead of failing
open. `PROMPT_TMPL.format(a=…, b=…)` at `post_process_dedup.py` line 190
runs before the `try` block that starts on line 191; the template's literal
JSON example is read by `str.format` as a replacement field named
`"duplicate"` (quotes included), which is not among the keyword arguments
`a`, `b`, so every call of `llm_confirm` raises that `KeyError` before the
oracle is even contacted and the fail-open `except` handler is unreachable.
The exception propagates uncaught through `main`: any run with the oracle
enabled and at least one escalated candidate pair — here the two-item run
whose single candidate pair `(0, 1)` fails the strong rule — aborts with the
`KeyError`, producing neither the deduplicated Markdown nor the audit CSV,
rather than treating the pair as not-confirmed and recording the reason. -/
theorem llm_confirm_format_keyerror :
    (∀ (parse : String → Option PyVal) (a b : Item)
        (resp : Except String String),
      llm_confirm parse a b resp = Except.error ("KeyError: " ++ "\"duplicate\"")) ∧
    candidate_pairs (fun u => u)
        [⟨"ida", "ta", "xa", "a", "", "s", "ra", "nn", 0, {"k"}⟩,
         ⟨"idb", "tb", "xb", "b", "", "sb", "rb", "nn", 0, {"k"}⟩] (62/100) 8
      = [(0, 1)] ∧
    dedupRun (fun u => u) (fun _ => none) true 200 "earliest" (62/100) 8
        (fun _ => Except.error "boom")
        [⟨"ida", "ta", "xa", "a", "", "s", "ra", "nn", 0, {"k"}⟩,
         ⟨"idb", "tb", "xb", "b", "", "sb", "rb", "nn", 0, {"k"}⟩]
      = Except.error ("KeyError: " ++ "\"duplicate\"") := by
  have hkey : ∀ (parse : String → Option PyVal) (a b : Item)
      (resp : Except String String),
      llm_confirm parse a b resp
        = Except.error ("KeyError: " ++ "\"duplicate\"") := by
    intro parse a b resp
    rfl
  have hj : jaccard {"k"} {"k"} = (1 : ℚ) := by
    rw [jaccard, if_neg (by simp), Finset.inter_self, Finset.union_self,
      Finset.card_singleton, if_neg (by norm_num)]
    norm_num
  have h1 : pairCond (62/100) 8
      (⟨"ida", "ta", "xa", "a", "", "s", "ra", "nn", 0, {"k"}⟩ : Item)
      (⟨"idb", "tb", "xb", "b", "", "sb", "rb", "nn", 0, {"k"}⟩ : Item) = true := by
    simp only [pairCond, hj]
    norm_num
    decide
  have h2 : candidate_pairs (fun u => u)
      [⟨"ida", "ta", "xa", "a", "", "s", "ra", "nn", 0, {"k"}⟩,
       ⟨"idb", "tb", "xb", "b", "", "sb", "rb", "nn", 0, {"k"}⟩] (62/100) 8
      = [(0, 1)] := by
    simp [candidate_pairs, pyEnum, dedupFirst, dedupFirstAux, hostOf, addPairs, h1]
  have h3 : buildEdges (fun u => u) (fun _ => none) true 200
      (fun _ => Except.error "boom")
      [⟨"ida", "ta", "xa", "a", "", "s", "ra", "nn", 0, {"k"}⟩,
       ⟨"idb", "tb", "xb", "b", "", "sb", "rb", "nn", 0, {"k"}⟩] 0 [(0, 1)]
      = Except.error ("KeyError: " ++ "\"duplicate\"") := by
    have hs : strongRule (fun u => u)
        (([⟨"ida", "ta", "xa", "a", "", "s", "ra", "nn", 0, {"k"}⟩,
           ⟨"idb", "tb", "xb", "b", "", "sb", "rb", "nn", 0, {"k"}⟩] : List Item).getD 0 default)
        (([⟨"ida", "ta", "xa", "a", "", "s", "ra", "nn", 0, {"k"}⟩,
           ⟨"idb", "tb", "xb", "b", "", "sb", "rb", "nn", 0, {"k"}⟩] : List Item).getD 1 default)
        = false := by
      simp [strongRule]
    simp only [buildEdges, hs, Bool.false_eq_true, if_false, hkey]
    simp
  refine ⟨hkey, h2, ?_⟩
  simp only [dedupRun, h2, h3]

/-! ## Layered store (`src/warehouse.py`) -/

/-- One `dwd_news` row (the columns the refresh queries read). -/
structure DwdRow where
  uid : String
  title : String
  url : String
  summary : String
  category : Option String
  source_id : String
  published_at : Option Int
  valid : Int
deriving DecidableEq

/-- One `dws_weekly` row; `PRIMARY KEY (year_week, source_id, category)`. -/
structure DwsRow where
  year_week : Int
  source_id : String
  category : String
  cnt : Nat
deriving DecidableEq

/-- One `ads_items` row; `PRIMARY KEY (year_week, uid)`. -/
structure AdsRow where
  year_week : Int
  uid : String
  title : String
  url : String
  summary : String
  category : String
  source_id : String
  published_at : Option Int
  score : ℚ
  rank : Nat
deriving DecidableEq

/-- The persisted store: detail, weekly-aggregate and ranked layers. -/
structure DWState where
  dwd : List DwdRow
  dws : List DwsRow
  ads : List AdsRow
deriving DecidableEq

/-- `COALESCE(NULLIF(LOWER(category), ''), 'unknown')`. -/
def normCatSQL (c : Option String) : String :=
  match c with
  | none => "unknown"
  | some s => if pyLower s = "" then "unknown" else pyLower s

/-- The `CASE LOWER(category) ... END` bonus of `refresh_ads`. -/
def catBonus (c : Option String) : ℚ :=
  match c with
  | none => 0
  | some s =>
    if pyLower s = "market" then 3/10
    else if pyLower s = "product" then 1/5
    else if pyLower s = "news" then 3/20
    else if pyLower s = "method" then 1/10
    else 0

/-- Sequential SQL `INSERT` into a table with a primary key: each new row is
rejected (`sqlite3.IntegrityError: UNIQUE constraint failed`) when a row
with the same key is already present. -/
def insertRows (keyConflict : α → α → Bool) : List α → List α → Except String (List α)
  | table, [] => Except.ok table
  | table, r :: rest =>
    if table.any (keyConflict r) then Except.error "UNIQUE constraint failed"
    else insertRows keyConflict (table ++ [r]) rest

/-- `published_at >= datetime('now', '-N day')` (NULL compares false). -/
def dwdInWindow (now lookback : Int) (r : DwdRow) : Bool :=
  match r.published_at with
  | some d => decide (now - lookback ≤ d)
  | none => false

/-- Primary key of a `dws_weekly` row. -/
def dwsKey (r : DwsRow) : Int × String × String := (r.year_week, r.source_id, r.category)

/-- The `(year_week, source_id, category)` group keys of all accepted,
timestamped detail rows — note: all of them, with no window restriction,
exactly as in the `INSERT ... SELECT` of `refresh_dws`. -/
def dwsKeysOf (week : Int → Int) (dwd : List DwdRow) : List (Int × String × String) :=
  (dwd.filter (fun r => r.valid == 1 && r.published_at.isSome)).filterMap
    (fun r => r.published_at.map (fun d => (week d, r.source_id, normCatSQL r.category)))

/-- The rows the `INSERT ... SELECT ... GROUP BY` of `refresh_dws` produces:
one row per distinct key with its multiplicity. -/
def dwsAggRows (week : Int → Int) (dwd : List DwdRow) : List DwsRow :=
  (dedupFirst (dwsKeysOf week dwd)).map
    (fun k => ⟨k.1, k.2.1, k.2.2, (dwsKeysOf week dwd).count k⟩)

/-- `warehouse.refresh_dws(lookback_days)`: collect the weeks of rows (of any
validity) inside the lookback window, delete those weeks from `dws_weekly`,
then insert one aggregate row per `(week, source, category)` over ALL
accepted timestamped rows — an unrestricted rebuild whose insert can collide
with retained rows of weeks outside the window. -/
def refresh_dws (week : Int → Int) (now lookback : Int) (st : DWState) :
    Except String DWState :=
  let weeks := dedupFirst ((st.dwd.filter (dwdInWindow now lookback)).filterMap
    (fun r => r.published_at.map week))
  let dwsKept := st.dws.filter (fun r => decide (r.year_week ∉ weeks))
  (insertRows (fun a b => dwsKey a == dwsKey b) dwsKept (dwsAggRows week st.dwd)).map
    (fun t => { st with dws := t })

/-- C1 evaluation at the failing input: one accepted detail row dated 100
days ago (day 900, now = day 1000, lookback 60).  The first `refresh_dws`
succeeds and writes the aggregate row for week 128; the second call deletes
no weeks (nothing is inside the window) but re-inserts every week, and dies
on the `dws_weekly` primary key — the refresh is not idempotent and fails,
contradicting its own `幂等刷新` (idempotent refresh) docstring. -/
theorem refresh_dws_second_call_fails :
    refresh_dws (fun d => d / 7) 1000 60
        ⟨[⟨"u1", "t", "url", "sum", some "news", "s", some 900, 1⟩], [], []⟩
      = Except.ok ⟨[⟨"u1", "t", "url", "sum", some "news", "s", some 900, 1⟩],
          [⟨128, "s", "news", 1⟩], []⟩ ∧
    refresh_dws (fun d => d / 7) 1000 60
        ⟨[⟨"u1", "t", "url", "sum", some "news", "s", some 900, 1⟩],
          [⟨128, "s", "news", 1⟩], []⟩
      = Except.error "UNIQUE constraint failed" := by
  constructor <;> rfl

/-- `valid=1 AND published_at >= datetime('now', ?)` (the base CTE filter of
`refresh_ads`, also the filter of its week query). -/
def adsWindow (now lookback : Int) (r : DwdRow) : Bool :=
  r.valid == 1 &&
    (match r.published_at with
      | some d => decide (now - lookback ≤ d)
      | none => false)

/-- The distinct weeks touched by `refresh_ads` (delete set = insert set). -/
def adsTouchedWeeks (week : Int → Int) (now lookback : Int)
    (dwd : List DwdRow) : List Int :=
  dedupFirst ((dwd.filter (adsWindow now lookback)).filterMap
    (fun r => r.published_at.map week))

/-- `0.6*recency + cat_bonus + 0.2*brevity` with
`recency = 1/(1 + (julianday('now') - julianday(published_at))/3)` and
`brevity = MIN(LENGTH(COALESCE(summary, '')), 400)/400.0`. -/
def scoreOf (now : Int) (r : DwdRow) (d : Int) : ℚ :=
  3/5 * (1 / (1 + ((now - d : Int) : ℚ) / 3)) + catBonus r.category
    + 1/5 * (((min r.summary.length 400 : Nat) : ℚ) / 400)

/-- One row of the `scored` CTE (rank still unassigned). -/
def mkScored (week : Int → Int) (now : Int) (r : DwdRow) (d : Int) : AdsRow :=
  ⟨week d, r.uid, r.title, r.url, r.summary, normCatSQL r.category, r.source_id,
    r.published_at, scoreOf now r d, 0⟩

/-- The `scored` CTE: every accepted, timestamped row inside the window. -/
def adsScoredRows (week : Int → Int) (now lookback : Int)
    (dwd : List DwdRow) : List AdsRow :=
  (dwd.filter (adsWindow now lookback)).filterMap
    (fun r => r.published_at.map (fun d => mkScored week now r d))

/-- `ROW_NUMBER()` assignment along the per-week score-descending order. -/
def assignRanks : Nat → List AdsRow → List AdsRow
  | _, [] => []
  | n, a :: l => { a with rank := n } :: assignRanks (n + 1) l

/-- The rows `refresh_ads` inserts: per touched week, the scored rows of that
week sorted by descending score (stable, as a SQL window numbering over the
stable scan order), truncated to `cap`, with ranks `1, 2, ...`. -/
def adsRankedRows (week : Int → Int) (now lookback : Int) (cap : Nat)
    (dwd : List DwdRow) : List AdsRow :=
  (adsTouchedWeeks week now lookback dwd).flatMap (fun w =>
    assignRanks 1 ((List.insertionSort (fun a b => b.score ≤ a.score)
      ((adsScoredRows week now lookback dwd).filter
        (fun a => a.year_week == w))).take cap))

/-- Primary key of an `ads_items` row. -/
def adsKey (a : AdsRow) : Int × String := (a.year_week, a.uid)

/-- `warehouse.refresh_ads(lookback_days, per_week_cap)`: delete the ranked
rows of every week touched by an accepted in-window row, then insert the
re-ranked top-`cap` rows of exactly those weeks. -/
def refresh_ads (week : Int → Int) (now lookback : Int) (cap : Nat)
    (st : DWState) : Except String DWState :=
  let weeks := adsTouchedWeeks week now lookback st.dwd
  let adsKept := st.ads.filter (fun a => decide (a.year_week ∉ weeks))
  (insertRows (fun a b => adsKey a == adsKey b) adsKept
    (adsRankedRows week now lookback cap st.dwd)).map
    (fun t => { st with ads := t })

theorem insertRows_ok_eq (keyConflict : α → α → Bool) (table rows t' : List α)
    (h : insertRows keyConflict table rows = Except.ok t') : t' = table ++ rows := by
  induction rows generalizing table with
  | nil =>
    simp only [insertRows, Except.ok.injEq] at h
    simp [← h]
  | cons r rest ih =>
    by_cases hc : (table.any (keyConflict r)) = true
    · rw [insertRows, if_pos hc] at h
      cases h
    · rw [insertRows, if_neg hc] at h
      rw [ih (table ++ [r]) h]
      simp

theorem mem_assignRanks (n : Nat) (l : List AdsRow) (a : AdsRow)
    (h : a ∈ assignRanks n l) :
    (∃ b ∈ l, a.year_week = b.year_week ∧ a.uid = b.uid ∧ a.score = b.score) ∧
    n ≤ a.rank ∧ a.rank < n + l.length := by
  induction l generalizing n with
  | nil => cases h
  | cons b l ih =>
    rcases List.mem_cons.mp h with rfl | hmem
    · exact ⟨⟨b, List.mem_cons_self b l, rfl, rfl, rfl⟩, le_refl n, by simp⟩
    · obtain ⟨⟨c, hc, h1, h2, h3⟩, h4, h5⟩ := ih (n + 1) hmem
      exact ⟨⟨c, List.mem_cons_of_mem b hc, h1, h2, h3⟩, by omega,
        by simp only [List.length_cons]; omega⟩

theorem assignRanks_length (n : Nat) (l : List AdsRow) :
    (assignRanks n l).length = l.length := by
  induction l generalizing n with
  | nil => rfl
  | cons b l ih => simp [assignRanks, ih]

theorem assignRanks_map_score (n : Nat) (l : List AdsRow) :
    (assignRanks n l).map (fun a => a.score) = l.map (fun a => a.score) := by
  induction l generalizing n with
  | nil => rfl
  | cons b l ih => simp [assignRanks, ih]

theorem filter_flatMap_blocks {β : Type} (key : β → Int) (blk : Int → List β)
    (hlab : ∀ w' a, a ∈ blk w' → key a = w') :
    ∀ (ws : List Int), ws.Nodup → ∀ w,
      (ws.flatMap blk).filter (fun a => key a == w) = if w ∈ ws then blk w else []
  | [], _, w => by simp
  | w' :: ws, hnd, w => by
    rw [List.nodup_cons] at hnd
    rw [List.flatMap_cons, List.filter_append,
      filter_flatMap_blocks key blk hlab ws hnd.2 w]
    by_cases hww : w = w'
    · subst hww
      rw [if_pos (List.mem_cons_self _ _), if_neg hnd.1,
        List.filter_eq_self.mpr (fun a ha => by simp [hlab w a ha])]
      simp
    · rw [List.filter_eq_nil.mpr (fun a ha => by
        simp only [beq_iff_eq, hlab w' a ha]
        exact fun h => hww h.symm)]
      simp only [List.nil_append]
      by_cases hmem : w ∈ ws
      · rw [if_pos hmem, if_pos (List.mem_cons_of_mem _ hmem)]
      · rw [if_neg hmem, if_neg (by simp [List.mem_cons, hww, hmem])]

theorem mem_adsBlock_week (week : Int → Int) (now lookback : Int) (cap : Nat)
    (dwd : List DwdRow) (w : Int) (a : AdsRow)
    (h : a ∈ assignRanks 1 ((List.insertionSort (fun a b => b.score ≤ a.score)
      ((adsScoredRows week now lookback dwd).filter
        (fun a => a.year_week == w))).take cap)) :
    a.year_week = w := by
  obtain ⟨⟨b, hb, h1, _, _⟩, _⟩ := mem_assignRanks 1 _ a h
  have hb2 := (List.take_sublist cap _).mem hb
  have hb3 := (List.perm_insertionSort
    (fun a b : AdsRow => b.score ≤ a.score) _).mem_iff.mp hb2
  have hb4 := (List.mem_filter.mp hb3).2
  rw [h1]
  simpa using hb4

theorem filter_adsRankedRows (week : Int → Int) (now lookback : Int) (cap : Nat)
    (dwd : List DwdRow) (w : Int) :
    (adsRankedRows week now lookback cap dwd).filter (fun a => a.year_week == w)
      = if w ∈ adsTouchedWeeks week now lookback dwd then
          assignRanks 1 ((List.insertionSort (fun a b => b.score ≤ a.score)
            ((adsScoredRows week now lookback dwd).filter
              (fun a => a.year_week == w))).take cap)
        else [] := by
  unfold adsRankedRows
  exact filter_flatMap_blocks (fun a => a.year_week) _
    (fun w' a ha => mem_adsBlock_week week now lookback cap dwd w' a ha)
    (adsTouchedWeeks week now lookback dwd) (nodup_dedupFirst _) w

/-- C6: `refresh_ads` scores every accepted, timestamped detail row inside
the lookback window as `0.6 × recency + category_bonus + 0.2 × brevity`
(recency `1/(1 + age/3)`, bonus `market 0.30 > product 0.20 > news 0.15 >
method 0.10 > else 0`, brevity `min(len(summary), 400)/400`), keeps at most
`per_week_cap` rows per touched week ranked `1..cap` by descending score,
and replaces exactly the touched weeks of the ranked layer. -/
theorem refresh_ads_spec (week : Int → Int) (now lookback : Int) (cap : Nat)
    (st st' : DWState)
    (hok : refresh_ads week now lookback cap st = Except.ok st') :
    (st'.ads = st.ads.filter
        (fun a => decide (a.year_week ∉ adsTouchedWeeks week now lookback st.dwd))
      ++ adsRankedRows week now lookback cap st.dwd) ∧
    (catBonus (some "market") = 3/10 ∧ catBonus (some "product") = 1/5 ∧
      catBonus (some "news") = 3/20 ∧ catBonus (some "method") = 1/10 ∧
      catBonus none = 0) ∧
    (∀ a ∈ adsRankedRows week now lookback cap st.dwd,
      1 ≤ a.rank ∧ a.rank ≤ cap ∧
      ∃ r ∈ st.dwd, ∃ d : Int, r.valid = 1 ∧ r.published_at = some d ∧
        now - lookback ≤ d ∧ a.uid = r.uid ∧ a.year_week = week d ∧
        a.score = 3/5 * (1 / (1 + ((now - d : Int) : ℚ) / 3)) + catBonus r.category
          + 1/5 * (((min r.summary.length 400 : Nat) : ℚ) / 400)) ∧
    (∀ r ∈ st.dwd, r.valid = 1 → ∀ d : Int, r.published_at = some d →
      now - lookback ≤ d →
      ∃ b ∈ adsScoredRows week now lookback st.dwd, b.uid = r.uid ∧
        b.year_week = week d ∧
        b.score = 3/5 * (1 / (1 + ((now - d : Int) : ℚ) / 3)) + catBonus r.category
          + 1/5 * (((min r.summary.length 400 : Nat) : ℚ) / 400)) ∧
    (∀ w : Int, ((adsRankedRows week now lookback cap st.dwd).filter
        (fun a => a.year_week == w)).length ≤ cap) ∧
    (∀ w : Int, (((adsRankedRows week now lookback cap st.dwd).filter
        (fun a => a.year_week == w)).map (fun a => a.score)).Pairwise
        (fun x y => y ≤ x)) := by
  refine ⟨?_, ?_, ?_, ?_, ?_, ?_⟩
  · simp only [refresh_ads] at hok
    cases hres : insertRows (fun a b => adsKey a == adsKey b)
        (st.ads.filter
          (fun a => decide (a.year_week ∉ adsTouchedWeeks week now lookback st.dwd)))
        (adsRankedRows week now lookback cap st.dwd) with
    | error e =>
      rw [hres] at hok
      simp [Except.map] at hok
    | ok t =>
      rw [hres] at hok
      simp only [Except.map, Except.ok.injEq] at hok
      calc st'.ads = t := by rw [← hok]
        _ = _ := insertRows_ok_eq _ _ _ t hres
  · exact ⟨by simp [catBonus, show pyLower "market" = "market" from rfl],
      by simp [catBonus, show pyLower "product" = "product" from rfl],
      by simp [catBonus, show pyLower "news" = "news" from rfl],
      by simp [catBonus, show pyLower "method" = "method" from rfl], rfl⟩
  · intro a ha
    simp only [adsRankedRows, List.mem_flatMap] at ha
    obtain ⟨w, hw, hblk⟩ := ha
    obtain ⟨⟨b, hb, hyw, huid, hscore⟩, hrank1, hrank2⟩ := mem_assignRanks 1 _ a hblk
    have hcap : ((List.insertionSort (fun a b => b.score ≤ a.score)
        ((adsScoredRows week now lookback st.dwd).filter
          (fun a => a.year_week == w))).take cap).length ≤ cap := by
      rw [List.length_take]
      exact min_le_left _ _
    refine ⟨hrank1, by omega, ?_⟩
    have hb2 := (List.take_sublist cap _).mem hb
    have hb3 := (List.perm_insertionSort
      (fun a b : AdsRow => b.score ≤ a.score) _).mem_iff.mp hb2
    have hb4 := (List.mem_filter.mp hb3).1
    simp only [adsScoredRows, List.mem_filterMap] at hb4
    obtain ⟨r, hrmem, hrmap⟩ := hb4
    obtain ⟨d, hd, hmk⟩ := Option.map_eq_some'.mp hrmap
    obtain ⟨hrdwd, hrwin⟩ := List.mem_filter.mp hrmem
    have hvalid : r.valid = 1 := by
      have := (Bool.and_eq_true _ _).mp hrwin |>.1
      simpa using this
    have hwin : now - lookback ≤ d := by
      have h2 := (Bool.and_eq_true _ _).mp hrwin |>.2
      rw [hd] at h2
      simpa using h2
    refine ⟨r, hrdwd, d, hvalid, hd, hwin, ?_, ?_, ?_⟩
    · rw [huid, ← hmk]
      rfl
    · rw [hyw, ← hmk]
      rfl
    · rw [hscore, ← hmk]
      rfl
  · intro r hr hvalid d hd hwin
    refine ⟨mkScored week now r d, ?_, rfl, rfl, rfl⟩
    simp only [adsScoredRows, List.mem_filterMap]
    refine ⟨r, List.mem_filter.mpr ⟨hr, ?_⟩, by rw [hd]; rfl⟩
    simp [adsWindow, hd, hvalid, hwin]
  · intro w
    rw [filter_adsRankedRows]
    split_ifs with hmem
    · rw [assignRanks_length, List.length_take]
      exact min_le_left _ _
    · simp
  · intro w
    rw [filter_adsRankedRows]
    split_ifs with hmem
    · rw [assignRanks_map_score]
      refine List.pairwise_map.mpr ?_
      haveI itot : IsTotal AdsRow (fun a b => b.score ≤ a.score) :=
        ⟨fun a b => le_total b.score a.score⟩
      haveI itr : IsTrans AdsRow (fun a b => b.score ≤ a.score) :=
        ⟨fun a b c hab hbc => le_trans hbc hab⟩
      exact List.Pairwise.sublist (List.take_sublist cap _)
        (List.sorted_insertionSort (fun a b : AdsRow => b.score ≤ a.score) _)
    · simp

/-- Witness for `refresh_ads_spec`: a one-row store; the refresh succeeds,
inserting exactly the scored, rank-1 row for week 142, and the theorem
applies to it. -/
theorem refresh_ads_spec_witness :
    refresh_ads (fun d => d / 7) 1000 30 200
        ⟨[⟨"u1", "t", "url", "sum", some "news", "s", some 995, 1⟩], [], []⟩
      = Except.ok ⟨[⟨"u1", "t", "url", "sum", some "news", "s", some 995, 1⟩], [],
          [⟨142, "u1", "t", "url", "sum", "news", "s", some 995,
            scoreOf 1000 ⟨"u1", "t", "url", "sum", some "news", "s", some 995, 1⟩ 995,
            1⟩]⟩ ∧
    catBonus (some "market") = 3/10 := by
  have h : refresh_ads (fun d => d / 7) 1000 30 200
      ⟨[⟨"u1", "t", "url", "sum", some "news", "s", some 995, 1⟩], [], []⟩
      = Except.ok ⟨[⟨"u1", "t", "url", "sum", some "news", "s", some 995, 1⟩], [],
          [⟨142, "u1", "t", "url", "sum", "news", "s", some 995,
            scoreOf 1000 ⟨"u1", "t", "url", "sum", some "news", "s", some 995, 1⟩ 995,
            1⟩]⟩ := rfl
  exact ⟨h, (refresh_ads_spec (fun d => d / 7) 1000 30 200 _ _ h).2.1.1⟩
